import Mathlib

/-!
Verification of the snowstorm conflict manager, vertex issuer, vertex builder,
AVM utxo pagination, managed-asset epoch rule and the platformvm health check
of the ava-labs/gecko repository, against its natural-language specification.

Identifiers (32-byte ids.ID values, 20-byte ids.ShortID addresses) are
modelled as natural numbers; byte-wise comparison becomes the order on Nat.
Go maps keyed by id become association lists queried through lookupA, so the
observable behaviour of a map is exactly its lookup function.  ids.Set
becomes Finset Nat.

The events.Blocker type and the acceptor/rejector callbacks of the conflicts
package are not part of the source tree; they are modelled from the spec
(section 4.1, Event blocker semantics): an entry holds a dependency set and
fires when all dependencies are fulfilled, is dropped when any dependency is
abandoned, and an entry registered with an empty dependency set fires
immediately.  The acceptor enqueues its tx into the acceptable queue, the
rejector into the rejectable queue.
-/

/-- Status of a decidable, from snow/choices. -/
inductive Status where
  | Unknown : Status
  | Processing : Status
  | Accepted : Status
  | Rejected : Status
deriving DecidableEq, Repr

/-- A dependency of a transaction as the conflict manager sees it: an id
together with the status observed when the conflict manager reads it. -/
structure Dep where
  depId : Nat
  status : Status
deriving DecidableEq, Repr

/-- A transaction as the conflict manager sees it: its id, the utxos it
consumes (tx.InputIDs()) and its dependencies (tx.Dependencies()). -/
structure Tx where
  txId : Nat
  inputIDs : List Nat
  deps : List Dep
deriving DecidableEq, Repr

/-- Association-list lookup; the observable content of a Go map. -/
def lookupA {α : Type} : List (Nat × α) → Nat → Option α
  | [], _ => none
  | (k, v) :: rest, key => if k = key then some v else lookupA rest key

/-- Map update m[key] = v: replace the first binding of key, else append. -/
def insertA {α : Type} : List (Nat × α) → Nat → α → List (Nat × α)
  | [], key, v => [(key, v)]
  | (k, w) :: rest, key, v =>
      if k = key then (key, v) :: rest else (k, w) :: insertA rest key v

/-- Map deletion delete(m, key). -/
def eraseA {α : Type} : List (Nat × α) → Nat → List (Nat × α)
  | [], _ => []
  | (k, w) :: rest, key =>
      if k = key then eraseA rest key else (k, w) :: eraseA rest key

theorem lookupA_insertA {α : Type} (m : List (Nat × α)) (k k' : Nat) (v : α) :
    lookupA (insertA m k v) k' = if k = k' then some v else lookupA m k' := by
  induction m with
  | nil => simp [insertA, lookupA]
  | cons hd tl ih =>
      obtain ⟨k0, v0⟩ := hd
      by_cases h0 : k0 = k
      · subst h0
        simp only [insertA, if_pos rfl, lookupA]
        by_cases h1 : k0 = k'
        · simp [h1]
        · simp [h1]
      · simp only [insertA, if_neg h0, lookupA]
        by_cases h1 : k0 = k'
        · subst h1
          have hk : ¬ k = k0 := fun h => h0 h.symm
          simp [hk]
        · simp [h1, ih]

theorem lookupA_eraseA {α : Type} (m : List (Nat × α)) (k k' : Nat) :
    lookupA (eraseA m k) k' = if k = k' then none else lookupA m k' := by
  induction m with
  | nil => simp [eraseA, lookupA]
  | cons hd tl ih =>
      obtain ⟨k0, v0⟩ := hd
      by_cases h0 : k0 = k
      · subst h0
        by_cases h1 : k0 = k'
        · subst h1
          simp [eraseA, ih]
        · have hk : ¬ k0 = k' := h1
          simp [eraseA, ih, hk, lookupA]
      · simp only [eraseA, if_neg h0, lookupA]
        by_cases h1 : k0 = k'
        · subst h1
          have hk : ¬ k = k0 := fun h => h0 h.symm
          simp [hk]
        · simp [h1, ih]

/-- An entry of an event blocker.  Modelled from the spec: a dependency set
together with the callback payload (the acceptor or rejector holds its tx). -/
structure Entry where
  deps : Finset Nat
  tx : Tx
deriving DecidableEq

/-- The conflict manager state (type Conflicts of the conflicts package). -/
structure Conflicts where
  txs : List (Nat × Tx)
  utxos : List (Nat × Finset Nat)
  pendingAccept : List Entry
  pendingReject : List Entry
  acceptable : List Tx
  rejectable : List Tx
deriving DecidableEq

/-- conflicts.New(): the empty conflict manager. -/
def Conflicts.New : Conflicts := ⟨[], [], [], [], [], []⟩

/-- Spender bucket of an input id, defaulting to the empty set when the key
is absent (the Go zero value of ids.Set). -/
def Conflicts.bucketD (c : Conflicts) (i : Nat) : Finset Nat :=
  (lookupA c.utxos i).getD ∅

/-- The dependency ids of tx whose observed status is not Accepted; both Add
and Accept filter dependencies this way. -/
def unacceptedDeps (tx : Tx) : Finset Nat :=
  ((tx.deps.filter fun d => d.status ≠ Status.Accepted).map Dep.depId).toFinset

/-- Blocker fulfill over an entry list.  Modelled from the spec: removes the
id from every entry's dependency set; entries whose set becomes empty fire
and are removed.  Returns the remaining entries and the fired payloads in
registration order. -/
def fulfillEntries (i : Nat) : List Entry → List Entry × List Tx
  | [] => ([], [])
  | e :: rest =>
      if i ∈ e.deps then
        if e.deps.erase i = ∅ then
          ((fulfillEntries i rest).1, e.tx :: (fulfillEntries i rest).2)
        else
          (⟨e.deps.erase i, e.tx⟩ :: (fulfillEntries i rest).1,
            (fulfillEntries i rest).2)
      else (e :: (fulfillEntries i rest).1, (fulfillEntries i rest).2)

/-- Blocker abandon over an entry list.  Modelled from the spec: every entry
holding the id among its dependencies is dropped without firing. -/
def abandonEntries (i : Nat) (l : List Entry) : List Entry :=
  l.filter fun e => i ∉ e.deps

/-- pendingAccept.Fulfill(id): fired acceptors enqueue into acceptable. -/
def Conflicts.fulfillAccept (c : Conflicts) (i : Nat) : Conflicts :=
  let p := fulfillEntries i c.pendingAccept
  { c with pendingAccept := p.1, acceptable := c.acceptable ++ p.2 }

/-- pendingReject.Fulfill(id): fired rejectors enqueue into rejectable. -/
def Conflicts.fulfillReject (c : Conflicts) (i : Nat) : Conflicts :=
  let p := fulfillEntries i c.pendingReject
  { c with pendingReject := p.1, rejectable := c.rejectable ++ p.2 }

/-- pendingAccept.Abandon(id). -/
def Conflicts.abandonAccept (c : Conflicts) (i : Nat) : Conflicts :=
  { c with pendingAccept := abandonEntries i c.pendingAccept }

/-- pendingReject.Abandon(id). -/
def Conflicts.abandonReject (c : Conflicts) (i : Nat) : Conflicts :=
  { c with pendingReject := abandonEntries i c.pendingReject }

/-- Blocker.Register on pendingAccept.  Modelled from the spec: an entry
registered with an empty dependency set fires immediately. -/
def Conflicts.registerAccept (c : Conflicts) (deps : Finset Nat) (tx : Tx) :
    Conflicts :=
  if deps = ∅ then { c with acceptable := c.acceptable ++ [tx] }
  else { c with pendingAccept := c.pendingAccept ++ [⟨deps, tx⟩] }

/-- Blocker.Register on pendingReject. -/
def Conflicts.registerReject (c : Conflicts) (deps : Finset Nat) (tx : Tx) :
    Conflicts :=
  if deps = ∅ then { c with rejectable := c.rejectable ++ [tx] }
  else { c with pendingReject := c.pendingReject ++ [⟨deps, tx⟩] }

/-- Conflicts.Add: insert tx into txs, mark the consumed utxos, and register
a rejector whose dependency set is the tx id together with the ids of its
not-yet-accepted dependencies. -/
def Conflicts.Add (c : Conflicts) (tx : Tx) : Conflicts :=
  let c1 : Conflicts :=
    { c with
        txs := insertA c.txs tx.txId tx
        utxos := tx.inputIDs.foldl
          (fun m i => insertA m i (insert tx.txId ((lookupA m i).getD ∅))) c.utxos }
  c1.registerReject (insert tx.txId (unacceptedDeps tx)) tx

/-- Conflicts.IsVirtuous: true iff no consumed input id is a key of utxos. -/
def Conflicts.IsVirtuous (c : Conflicts) (tx : Tx) : Bool :=
  tx.inputIDs.all fun i => (lookupA c.utxos i).isNone

/-- Conflicts.conflicts: the union of the spender buckets of the tx's
inputs, exactly as the source computes it (no removal of the tx's own id). -/
def Conflicts.conflictsOf (c : Conflicts) (tx : Tx) : Finset Nat :=
  tx.inputIDs.foldl (fun s i => s ∪ c.bucketD i) ∅

/-- Conflicts.Accept: look the tx up in txs and register an acceptor whose
dependency set is the ids of the tx's not-yet-accepted dependencies.  In Go a
missing key yields a nil interface value and the subsequent
tx.Dependencies() call dereferences it; that failure branch is the none
result here. -/
def Conflicts.Accept (c : Conflicts) (txID : Nat) : Option Conflicts :=
  match lookupA c.txs txID with
  | none => none
  | some tx => some (c.registerAccept (unacceptedDeps tx) tx)

/-- The utxo-removal loop shared by both halves of Updateable: for each
consumed input, delete the tx id from the spender bucket and drop the bucket
when it becomes empty. -/
def removeSpenders (m : List (Nat × Finset Nat)) (inputIDs : List Nat)
    (txID : Nat) : List (Nat × Finset Nat) :=
  inputIDs.foldl
    (fun m i =>
      let s := ((lookupA m i).getD ∅).erase txID
      if s = ∅ then eraseA m i else insertA m i s) m

/-- One iteration of the acceptable-drain loop of Updateable: remove the tx
from utxos and txs, fulfill pendingAccept and abandon pendingReject with its
id, then fulfill pendingReject for each remaining conflict of the tx.  The Go
code ranges over the conflict set in map order; the model iterates in sorted
order, which the order-insensitive claims do not observe. -/
def drainAcceptOne (c : Conflicts) (tx : Tx) : Conflicts :=
  let c1 : Conflicts :=
    { c with
        utxos := removeSpenders c.utxos tx.inputIDs tx.txId
        txs := eraseA c.txs tx.txId }
  let c2 := c1.fulfillAccept tx.txId
  let c3 := c2.abandonReject tx.txId
  (c3.conflictsOf tx).sort (· ≤ ·) |>.foldl (fun c i => c.fulfillReject i) c3

/-- One iteration of the rejectable-drain loop of Updateable. -/
def drainRejectOne (c : Conflicts) (tx : Tx) : Conflicts :=
  let c1 : Conflicts :=
    { c with
        utxos := removeSpenders c.utxos tx.inputIDs tx.txId
        txs := eraseA c.txs tx.txId }
  let c2 := c1.abandonAccept tx.txId
  c2.fulfillReject tx.txId

/-- Conflicts.Updateable: snapshot and clear acceptable, drain it, snapshot
and clear rejectable (which the acceptable drain may have extended), drain
it, and return both snapshots with the final state. -/
def Conflicts.Updateable (c : Conflicts) : List Tx × List Tx × Conflicts :=
  let acc := c.acceptable
  let c1 : Conflicts := { c with acceptable := [] }
  let c2 := acc.foldl drainAcceptOne c1
  let rej := c2.rejectable
  let c3 : Conflicts := { c2 with rejectable := [] }
  let c4 := rej.foldl drainRejectOne c3
  (acc, rej, c4)

/-- A tx id is fresh for the manager when it is not a key of txs and no
queued tx or blocker entry still references it.  Add documents that the tx
being inserted is assumed not to be already processing; a tx whose queue or
blocker references have not yet drained is still being processed by the
manager, and re-adding its id would be the double-insert programming error
the spec rules out. -/
def freshId (c : Conflicts) (t : Nat) : Bool :=
  (lookupA c.txs t).isNone &&
    c.acceptable.all (fun tx => tx.txId ≠ t) &&
    c.rejectable.all (fun tx => tx.txId ≠ t) &&
    c.pendingAccept.all (fun e => e.tx.txId ≠ t) &&
    c.pendingReject.all (fun e => e.tx.txId ≠ t)

/-- One driver-visible operation on the conflict manager. -/
inductive CMStep : Conflicts → Conflicts → Prop where
  | add (c : Conflicts) (tx : Tx) (h : freshId c tx.txId = true) :
      CMStep c (c.Add tx)
  | accept (c : Conflicts) (txID : Nat) (c' : Conflicts)
      (h : c.Accept txID = some c') : CMStep c c'
  | updateable (c : Conflicts) : CMStep c c.Updateable.2.2

/-- States reachable from the fresh manager by Add, Accept and Updateable. -/
inductive CMReachable : Conflicts → Prop where
  | init : CMReachable Conflicts.New
  | step {c c' : Conflicts} : CMReachable c → CMStep c c' → CMReachable c'

/-- The bucket update performed by Add, factored for reasoning. -/
def addBuckets (m : List (Nat × Finset Nat)) (l : List Nat) (t : Nat) :
    List (Nat × Finset Nat) :=
  l.foldl (fun m i => insertA m i (insert t ((lookupA m i).getD ∅))) m

theorem addBuckets_eq (c : Conflicts) (tx : Tx) :
    (Conflicts.Add c tx).utxos = addBuckets c.utxos tx.inputIDs tx.txId := by
  simp only [Conflicts.Add, Conflicts.registerReject, addBuckets]
  by_cases h : insert tx.txId (unacceptedDeps tx) = ∅ <;> simp [h]

theorem lookupA_addBuckets (l : List Nat) (m : List (Nat × Finset Nat))
    (t i : Nat) :
    lookupA (addBuckets m l t) i =
      if i ∈ l then some (insert t ((lookupA m i).getD ∅)) else lookupA m i := by
  induction l generalizing m with
  | nil => simp [addBuckets]
  | cons a rest ih =>
      have step : addBuckets m (a :: rest) t =
          addBuckets (insertA m a (insert t ((lookupA m a).getD ∅))) rest t := rfl
      rw [step, ih]
      by_cases hmem : i ∈ rest
      · simp only [if_pos hmem, List.mem_cons, hmem, or_true, if_pos]
        rw [lookupA_insertA]
        by_cases hai : a = i
        · subst hai
          simp [Finset.insert_idem]
        · simp [hai]
      · rw [lookupA_insertA]
        by_cases hai : a = i
        · subst hai
          simp [hmem]
        · have hcons : ¬ i ∈ a :: rest := by
            intro h
            rcases List.mem_cons.mp h with h1 | h2
            · exact hai h1.symm
            · exact hmem h2
          simp [hai, hmem, hcons]

/-- The effect of removing one tx from one optional bucket. -/
def shrinkB (o : Option (Finset Nat)) (t : Nat) : Option (Finset Nat) :=
  match o with
  | none => none
  | some b => if b.erase t = ∅ then none else some (b.erase t)

theorem shrinkB_idem (o : Option (Finset Nat)) (t : Nat) :
    shrinkB (shrinkB o t) t = shrinkB o t := by
  match o with
  | none => rfl
  | some b =>
      by_cases h : b.erase t = ∅
      · simp [shrinkB, h]
      · simp [shrinkB, h, Finset.erase_idem]

theorem lookupA_removeSpenders (l : List Nat) (m : List (Nat × Finset Nat))
    (t i : Nat) :
    lookupA (removeSpenders m l t) i =
      if i ∈ l then shrinkB (lookupA m i) t else lookupA m i := by
  induction l generalizing m with
  | nil => simp [removeSpenders]
  | cons a rest ih =>
      have hone : ∀ m' : List (Nat × Finset Nat), removeSpenders m' (a :: rest) t =
          removeSpenders
            (if ((lookupA m' a).getD ∅).erase t = ∅ then eraseA m' a
              else insertA m' a (((lookupA m' a).getD ∅).erase t)) rest t := by
        intro m'
        rfl
      rw [hone, ih]
      have hstep : lookupA
          (if ((lookupA m a).getD ∅).erase t = ∅ then eraseA m a
            else insertA m a (((lookupA m a).getD ∅).erase t)) i =
          if a = i then shrinkB (lookupA m a) t else lookupA m i := by
        by_cases he : ((lookupA m a).getD ∅).erase t = ∅
        · rw [if_pos he, lookupA_eraseA]
          by_cases hai : a = i
          · subst hai
            simp only [if_pos rfl]
            match hm : lookupA m a with
            | none => rfl
            | some b =>
                rw [hm] at he
                simp only [Option.getD_some] at he
                simp [shrinkB, he]
          · simp [hai]
        · rw [if_neg he, lookupA_insertA]
          by_cases hai : a = i
          · subst hai
            simp only [if_pos rfl]
            match hm : lookupA m a with
            | none =>
                rw [hm] at he
                simp at he
            | some b =>
                rw [hm] at he
                simp only [Option.getD_some] at he
                simp [shrinkB, he]
          · simp [hai]
      by_cases hmem : i ∈ rest
      · simp only [if_pos hmem, List.mem_cons, hmem, or_true, if_pos]
        rw [hstep]
        by_cases hai : a = i
        · subst hai
          rw [if_pos rfl, shrinkB_idem]
        · simp [hai]
      · rw [hstep]
        by_cases hai : a = i
        · subst hai
          simp [hmem]
        · have hcons : ¬ i ∈ a :: rest := by
            intro h
            rcases List.mem_cons.mp h with h1 | h2
            · exact hai h1.symm
            · exact hmem h2
          simp [hai, hmem, hcons]

/-- A queued or registered tx is consistent with the txs map: whatever the
map holds under its id is that very tx. -/
def txConsistent (c : Conflicts) (tx : Tx) : Prop :=
  ∀ tx', lookupA c.txs tx.txId = some tx' → tx' = tx

/-- A tx id fully expelled from the bookkeeping state. -/
def txAbsent (c : Conflicts) (t : Nat) : Prop :=
  lookupA c.txs t = none ∧ ∀ i b, lookupA c.utxos i = some b → t ∉ b

/-- The inductive invariant of the conflict manager. -/
structure CMInv (c : Conflicts) : Prop where
  keyed : ∀ t tx, lookupA c.txs t = some tx → tx.txId = t
  nonempty : ∀ i b, lookupA c.utxos i = some b → b ≠ ∅
  sound : ∀ i b, lookupA c.utxos i = some b →
    ∀ t ∈ b, ∃ tx, lookupA c.txs t = some tx ∧ i ∈ tx.inputIDs
  complete : ∀ t tx, lookupA c.txs t = some tx →
    ∀ i ∈ tx.inputIDs, t ∈ c.bucketD i
  wfA : ∀ tx ∈ c.acceptable, txConsistent c tx
  wfR : ∀ tx ∈ c.rejectable, txConsistent c tx
  wfPA : ∀ e ∈ c.pendingAccept, txConsistent c e.tx
  wfPR : ∀ e ∈ c.pendingReject, txConsistent c e.tx

theorem cmInv_new : CMInv Conflicts.New := by
  constructor
  · intro t tx h
    simp [Conflicts.New, lookupA] at h
  · intro i b h
    simp [Conflicts.New, lookupA] at h
  · intro i b h
    simp [Conflicts.New, lookupA] at h
  · intro t tx h
    simp [Conflicts.New, lookupA] at h
  · intro tx h
    simp [Conflicts.New] at h
  · intro tx h
    simp [Conflicts.New] at h
  · intro e h
    simp [Conflicts.New] at h
  · intro e h
    simp [Conflicts.New] at h

theorem mem_fulfillEntries_fst (i : Nat) (l : List Entry) (e' : Entry)
    (h : e' ∈ (fulfillEntries i l).1) : ∃ e ∈ l, e'.tx = e.tx := by
  induction l with
  | nil => simp [fulfillEntries] at h
  | cons e rest ih =>
      by_cases hi : i ∈ e.deps
      · by_cases hrest : e.deps.erase i = ∅
        · simp only [fulfillEntries, if_pos hi, if_pos hrest] at h
          obtain ⟨e0, he0, heq⟩ := ih h
          exact ⟨e0, List.mem_cons_of_mem _ he0, heq⟩
        · simp only [fulfillEntries, if_pos hi, if_neg hrest, List.mem_cons] at h
          rcases h with h | h
          · exact ⟨e, List.mem_cons_self _ _, by rw [h]⟩
          · obtain ⟨e0, he0, heq⟩ := ih h
            exact ⟨e0, List.mem_cons_of_mem _ he0, heq⟩
      · simp only [fulfillEntries, if_neg hi, List.mem_cons] at h
        rcases h with h | h
        · exact ⟨e, List.mem_cons_self _ _, by rw [h]⟩
        · obtain ⟨e0, he0, heq⟩ := ih h
          exact ⟨e0, List.mem_cons_of_mem _ he0, heq⟩

theorem mem_fulfillEntries_snd (i : Nat) (l : List Entry) (t : Tx)
    (h : t ∈ (fulfillEntries i l).2) : ∃ e ∈ l, t = e.tx := by
  induction l with
  | nil => simp [fulfillEntries] at h
  | cons e rest ih =>
      by_cases hi : i ∈ e.deps
      · by_cases hrest : e.deps.erase i = ∅
        · simp only [fulfillEntries, if_pos hi, if_pos hrest, List.mem_cons] at h
          rcases h with h | h
          · exact ⟨e, List.mem_cons_self _ _, h⟩
          · obtain ⟨e0, he0, heq⟩ := ih h
            exact ⟨e0, List.mem_cons_of_mem _ he0, heq⟩
        · simp only [fulfillEntries, if_pos hi, if_neg hrest] at h
          obtain ⟨e0, he0, heq⟩ := ih h
          exact ⟨e0, List.mem_cons_of_mem _ he0, heq⟩
      · simp only [fulfillEntries, if_neg hi] at h
        obtain ⟨e0, he0, heq⟩ := ih h
        exact ⟨e0, List.mem_cons_of_mem _ he0, heq⟩

theorem mem_abandonEntries (i : Nat) (l : List Entry) (e : Entry)
    (h : e ∈ abandonEntries i l) : e ∈ l :=
  List.mem_of_mem_filter h

theorem fulfillAccept_txs (c : Conflicts) (i : Nat) :
    (c.fulfillAccept i).txs = c.txs := rfl

theorem fulfillAccept_utxos (c : Conflicts) (i : Nat) :
    (c.fulfillAccept i).utxos = c.utxos := rfl

theorem fulfillReject_txs (c : Conflicts) (i : Nat) :
    (c.fulfillReject i).txs = c.txs := rfl

theorem fulfillReject_utxos (c : Conflicts) (i : Nat) :
    (c.fulfillReject i).utxos = c.utxos := rfl

theorem abandonAccept_txs (c : Conflicts) (i : Nat) :
    (c.abandonAccept i).txs = c.txs := rfl

theorem abandonAccept_utxos (c : Conflicts) (i : Nat) :
    (c.abandonAccept i).utxos = c.utxos := rfl

theorem abandonReject_txs (c : Conflicts) (i : Nat) :
    (c.abandonReject i).txs = c.txs := rfl

theorem abandonReject_utxos (c : Conflicts) (i : Nat) :
    (c.abandonReject i).utxos = c.utxos := rfl

/-- txConsistent only looks at the txs component. -/
theorem txConsistent_of_txs_eq {c c' : Conflicts} (h : c'.txs = c.txs)
    (tx : Tx) (hc : txConsistent c tx) : txConsistent c' tx := by
  intro tx' hl
  exact hc tx' (by rw [h] at hl; exact hl)

/-- txAbsent only looks at the txs and utxos components. -/
theorem txAbsent_of_eq {c c' : Conflicts} (ht : c'.txs = c.txs)
    (hu : c'.utxos = c.utxos) (t : Nat) (ha : txAbsent c t) : txAbsent c' t := by
  refine ⟨by rw [ht]; exact ha.1, ?_⟩
  intro i b hl
  exact ha.2 i b (by rw [hu] at hl; exact hl)

theorem cmInv_fulfillAccept (c : Conflicts) (i : Nat) (h : CMInv c) :
    CMInv (c.fulfillAccept i) := by
  refine ⟨h.keyed, h.nonempty, h.sound, ?_, ?_, ?_, ?_, ?_⟩
  · intro t tx hl
    exact h.complete t tx hl
  · intro tx htx
    rcases List.mem_append.mp htx with hmem | hmem
    · exact txConsistent_of_txs_eq rfl tx (h.wfA tx hmem)
    · obtain ⟨e, he, heq⟩ := mem_fulfillEntries_snd i c.pendingAccept tx hmem
      have := h.wfPA e he
      rw [heq]
      exact txConsistent_of_txs_eq rfl _ this
  · intro tx htx
    exact txConsistent_of_txs_eq rfl tx (h.wfR tx htx)
  · intro e he
    obtain ⟨e0, he0, heq⟩ := mem_fulfillEntries_fst i c.pendingAccept e he
    rw [heq]
    exact txConsistent_of_txs_eq rfl _ (h.wfPA e0 he0)
  · intro e he
    exact txConsistent_of_txs_eq rfl _ (h.wfPR e he)

theorem cmInv_fulfillReject (c : Conflicts) (i : Nat) (h : CMInv c) :
    CMInv (c.fulfillReject i) := by
  refine ⟨h.keyed, h.nonempty, h.sound, ?_, ?_, ?_, ?_, ?_⟩
  · intro t tx hl
    exact h.complete t tx hl
  · intro tx htx
    exact txConsistent_of_txs_eq rfl tx (h.wfA tx htx)
  · intro tx htx
    rcases List.mem_append.mp htx with hmem | hmem
    · exact txConsistent_of_txs_eq rfl tx (h.wfR tx hmem)
    · obtain ⟨e, he, heq⟩ := mem_fulfillEntries_snd i c.pendingReject tx hmem
      rw [heq]
      exact txConsistent_of_txs_eq rfl _ (h.wfPR e he)
  · intro e he
    exact txConsistent_of_txs_eq rfl _ (h.wfPA e he)
  · intro e he
    obtain ⟨e0, he0, heq⟩ := mem_fulfillEntries_fst i c.pendingReject e he
    rw [heq]
    exact txConsistent_of_txs_eq rfl _ (h.wfPR e0 he0)

theorem cmInv_abandonAccept (c : Conflicts) (i : Nat) (h : CMInv c) :
    CMInv (c.abandonAccept i) := by
  refine ⟨h.keyed, h.nonempty, h.sound, ?_, ?_, ?_, ?_, ?_⟩
  · intro t tx hl
    exact h.complete t tx hl
  · intro tx htx
    exact txConsistent_of_txs_eq rfl tx (h.wfA tx htx)
  · intro tx htx
    exact txConsistent_of_txs_eq rfl tx (h.wfR tx htx)
  · intro e he
    exact txConsistent_of_txs_eq rfl _ (h.wfPA e (mem_abandonEntries i _ e he))
  · intro e he
    exact txConsistent_of_txs_eq rfl _ (h.wfPR e he)

theorem cmInv_abandonReject (c : Conflicts) (i : Nat) (h : CMInv c) :
    CMInv (c.abandonReject i) := by
  refine ⟨h.keyed, h.nonempty, h.sound, ?_, ?_, ?_, ?_, ?_⟩
  · intro t tx hl
    exact h.complete t tx hl
  · intro tx htx
    exact txConsistent_of_txs_eq rfl tx (h.wfA tx htx)
  · intro tx htx
    exact txConsistent_of_txs_eq rfl tx (h.wfR tx htx)
  · intro e he
    exact txConsistent_of_txs_eq rfl _ (h.wfPA e he)
  · intro e he
    exact txConsistent_of_txs_eq rfl _ (h.wfPR e (mem_abandonEntries i _ e he))

theorem freshId_spec (c : Conflicts) (t : Nat) (h : freshId c t = true) :
    lookupA c.txs t = none ∧
      (∀ tx ∈ c.acceptable, tx.txId ≠ t) ∧
      (∀ tx ∈ c.rejectable, tx.txId ≠ t) ∧
      (∀ e ∈ c.pendingAccept, e.tx.txId ≠ t) ∧
      (∀ e ∈ c.pendingReject, e.tx.txId ≠ t) := by
  simp only [freshId, Bool.and_eq_true, List.all_eq_true, decide_eq_true_eq,
    Option.isNone_iff_eq_none] at h
  exact ⟨h.1.1.1.1, h.1.1.1.2, h.1.1.2, h.1.2, h.2⟩

theorem add_components (c : Conflicts) (tx : Tx) :
    (c.Add tx).txs = insertA c.txs tx.txId tx ∧
      (c.Add tx).utxos = addBuckets c.utxos tx.inputIDs tx.txId ∧
      (c.Add tx).pendingAccept = c.pendingAccept ∧
      (c.Add tx).pendingReject =
        c.pendingReject ++ [⟨insert tx.txId (unacceptedDeps tx), tx⟩] ∧
      (c.Add tx).acceptable = c.acceptable ∧
      (c.Add tx).rejectable = c.rejectable := by
  have hne : insert tx.txId (unacceptedDeps tx) ≠ ∅ := by
    intro h
    exact absurd (h ▸ Finset.mem_insert_self tx.txId (unacceptedDeps tx))
      (Finset.not_mem_empty _)
  simp [Conflicts.Add, Conflicts.registerReject, hne, addBuckets]

theorem cmInv_add (c : Conflicts) (tx : Tx) (h : CMInv c)
    (hf : freshId c tx.txId = true) : CMInv (c.Add tx) := by
  obtain ⟨hfx, hfA, hfR, hfPA, hfPR⟩ := freshId_spec c tx.txId hf
  obtain ⟨ht, hu, hpa, hpr, hac, hrj⟩ := add_components c tx
  have hlt : ∀ t, lookupA (c.Add tx).txs t =
      if tx.txId = t then some tx else lookupA c.txs t := by
    intro t
    rw [ht, lookupA_insertA]
  have hlu : ∀ i, lookupA (c.Add tx).utxos i =
      if i ∈ tx.inputIDs then some (insert tx.txId ((lookupA c.utxos i).getD ∅))
      else lookupA c.utxos i := by
    intro i
    rw [hu, lookupA_addBuckets]
  have hconsNew : ∀ tx0 : Tx, tx0.txId ≠ tx.txId → txConsistent c tx0 →
      txConsistent (c.Add tx) tx0 := by
    intro tx0 hne hc tx' hl
    rw [hlt] at hl
    rw [if_neg (fun hh => hne hh.symm)] at hl
    exact hc tx' hl
  constructor
  · intro t tx0 hl
    rw [hlt] at hl
    by_cases he : tx.txId = t
    · rw [if_pos he] at hl
      cases hl
      exact he
    · rw [if_neg he] at hl
      exact h.keyed t tx0 hl
  · intro i b hl
    rw [hlu] at hl
    by_cases hi : i ∈ tx.inputIDs
    · rw [if_pos hi] at hl
      cases hl
      intro hemp
      exact absurd (hemp ▸ Finset.mem_insert_self _ _) (Finset.not_mem_empty _)
    · rw [if_neg hi] at hl
      exact h.nonempty i b hl
  · intro i b hl t htb
    rw [hlu] at hl
    by_cases hi : i ∈ tx.inputIDs
    · rw [if_pos hi] at hl
      cases hl
      rcases Finset.mem_insert.mp htb with he | hold
      · subst he
        refine ⟨tx, ?_, hi⟩
        rw [hlt, if_pos rfl]
      · match hm : lookupA c.utxos i with
        | none =>
            rw [hm] at hold
            exact absurd hold (Finset.not_mem_empty _)
        | some b0 =>
            rw [hm] at hold
            simp only [Option.getD_some] at hold
            obtain ⟨tx0, htx0, hmem⟩ := h.sound i b0 hm t hold
            refine ⟨tx0, ?_, hmem⟩
            rw [hlt]
            have : tx.txId ≠ t := by
              intro he
              rw [← he] at htx0
              rw [hfx] at htx0
              cases htx0
            rw [if_neg this]
            exact htx0
    · rw [if_neg hi] at hl
      obtain ⟨tx0, htx0, hmem⟩ := h.sound i b hl t htb
      refine ⟨tx0, ?_, hmem⟩
      rw [hlt]
      have : tx.txId ≠ t := by
        intro he
        rw [← he] at htx0
        rw [hfx] at htx0
        cases htx0
      rw [if_neg this]
      exact htx0
  · intro t tx0 hl i hi
    have hb : (c.Add tx).bucketD i = (lookupA (c.Add tx).utxos i).getD ∅ := rfl
    rw [hlt] at hl
    by_cases he : tx.txId = t
    · rw [if_pos he] at hl
      cases hl
      rw [hb, hlu, if_pos hi]
      simp
      exact Or.inl he.symm
    · rw [if_neg he] at hl
      have hold := h.complete t tx0 hl i hi
      rw [hb, hlu]
      by_cases hin : i ∈ tx.inputIDs
      · rw [if_pos hin]
        simp only [Option.getD_some]
        exact Finset.mem_insert_of_mem hold
      · rw [if_neg hin]
        exact hold
  · intro tx0 htx0
    rw [hac] at htx0
    have hne : tx0.txId ≠ tx.txId := hfA tx0 htx0
    exact hconsNew tx0 hne (h.wfA tx0 htx0)
  · intro tx0 htx0
    rw [hrj] at htx0
    exact hconsNew tx0 (hfR tx0 htx0) (h.wfR tx0 htx0)
  · intro e he
    rw [hpa] at he
    exact hconsNew e.tx (hfPA e he) (h.wfPA e he)
  · intro e he
    rw [hpr] at he
    rcases List.mem_append.mp he with hold | hnew
    · exact hconsNew e.tx (hfPR e hold) (h.wfPR e hold)
    · have : e = ⟨insert tx.txId (unacceptedDeps tx), tx⟩ := by
        simpa using hnew
      subst this
      intro tx' hl
      rw [hlt, if_pos rfl] at hl
      cases hl
      rfl

theorem cmInv_accept (c : Conflicts) (txID : Nat) (c' : Conflicts)
    (h : CMInv c) (ha : c.Accept txID = some c') : CMInv c' := by
  unfold Conflicts.Accept at ha
  match hm : lookupA c.txs txID with
  | none =>
      rw [hm] at ha
      cases ha
  | some tx =>
      rw [hm] at ha
      cases ha
      have hcons : txConsistent c tx := by
        intro tx' hl
        have hid := h.keyed txID tx hm
        rw [hid] at hl
        rw [hl] at hm
        cases hm
        rfl
      unfold Conflicts.registerAccept
      by_cases hd : unacceptedDeps tx = ∅
      · rw [if_pos hd]
        refine ⟨h.keyed, h.nonempty, h.sound, h.complete, ?_, h.wfR, h.wfPA, h.wfPR⟩
        intro tx0 htx0
        rcases List.mem_append.mp htx0 with hold | hnew
        · exact h.wfA tx0 hold
        · have : tx0 = tx := by simpa using hnew
          subst this
          exact hcons
      · rw [if_neg hd]
        refine ⟨h.keyed, h.nonempty, h.sound, h.complete, h.wfA, h.wfR, ?_, h.wfPR⟩
        intro e he
        rcases List.mem_append.mp he with hold | hnew
        · exact h.wfPA e hold
        · have : e = ⟨unacceptedDeps tx, tx⟩ := by simpa using hnew
          subst this
          exact hcons

theorem foldFulfillReject_txs (l : List Nat) :
    ∀ c : Conflicts, (l.foldl (fun c i => c.fulfillReject i) c).txs = c.txs := by
  induction l with
  | nil => intro c; rfl
  | cons a rest ih =>
      intro c
      exact (ih (c.fulfillReject a)).trans rfl

theorem foldFulfillReject_utxos (l : List Nat) :
    ∀ c : Conflicts, (l.foldl (fun c i => c.fulfillReject i) c).utxos = c.utxos := by
  induction l with
  | nil => intro c; rfl
  | cons a rest ih =>
      intro c
      exact (ih (c.fulfillReject a)).trans rfl

theorem cmInv_foldFulfillReject (l : List Nat) :
    ∀ c : Conflicts, CMInv c → CMInv (l.foldl (fun c i => c.fulfillReject i) c) := by
  induction l with
  | nil => intro c h; exact h
  | cons a rest ih =>
      intro c h
      exact ih (c.fulfillReject a) (cmInv_fulfillReject c a h)

/-- The state of the manager after the shared removal loop of Updateable. -/
def drainCore (c : Conflicts) (tx : Tx) : Conflicts :=
  { c with
      utxos := removeSpenders c.utxos tx.inputIDs tx.txId
      txs := eraseA c.txs tx.txId }

theorem drainAcceptOne_eq (c : Conflicts) (tx : Tx) :
    drainAcceptOne c tx =
      List.foldl (fun c i => c.fulfillReject i)
        (((drainCore c tx).fulfillAccept tx.txId).abandonReject tx.txId)
        (((((drainCore c tx).fulfillAccept tx.txId).abandonReject
            tx.txId).conflictsOf tx).sort (· ≤ ·)) := rfl

theorem drainRejectOne_eq (c : Conflicts) (tx : Tx) :
    drainRejectOne c tx =
      ((drainCore c tx).abandonAccept tx.txId).fulfillReject tx.txId := rfl

theorem drainCore_lookup_txs (c : Conflicts) (tx : Tx) (t : Nat) :
    lookupA (drainCore c tx).txs t =
      if tx.txId = t then none else lookupA c.txs t := by
  unfold drainCore
  exact lookupA_eraseA c.txs tx.txId t

theorem drainCore_lookup_utxos (c : Conflicts) (tx : Tx) (i : Nat) :
    lookupA (drainCore c tx).utxos i =
      if i ∈ tx.inputIDs then shrinkB (lookupA c.utxos i) tx.txId
      else lookupA c.utxos i := by
  unfold drainCore
  exact lookupA_removeSpenders tx.inputIDs c.utxos tx.txId i

theorem txConsistent_drainCore (c : Conflicts) (tx tx0 : Tx)
    (h : txConsistent c tx0) : txConsistent (drainCore c tx) tx0 := by
  intro tx' hl
  rw [drainCore_lookup_txs] at hl
  by_cases he : tx.txId = tx0.txId
  · rw [if_pos he] at hl
    cases hl
  · rw [if_neg he] at hl
    exact h tx' hl

theorem cmInv_drainCore (c : Conflicts) (tx : Tx) (h : CMInv c)
    (hcons : txConsistent c tx) : CMInv (drainCore c tx) := by
  constructor
  · intro t tx0 hl
    rw [drainCore_lookup_txs] at hl
    by_cases he : tx.txId = t
    · rw [if_pos he] at hl
      cases hl
    · rw [if_neg he] at hl
      exact h.keyed t tx0 hl
  · intro i b hl
    rw [drainCore_lookup_utxos] at hl
    by_cases hi : i ∈ tx.inputIDs
    · rw [if_pos hi] at hl
      match hm : lookupA c.utxos i with
      | none => rw [hm] at hl; cases hl
      | some b0 =>
          rw [hm] at hl
          simp only [shrinkB] at hl
          by_cases hb : b0.erase tx.txId = ∅
          · rw [if_pos hb] at hl
            cases hl
          · rw [if_neg hb] at hl
            cases hl
            exact hb
    · rw [if_neg hi] at hl
      exact h.nonempty i b hl
  · intro i b hl t htb
    rw [drainCore_lookup_utxos] at hl
    by_cases hi : i ∈ tx.inputIDs
    · rw [if_pos hi] at hl
      match hm : lookupA c.utxos i with
      | none => rw [hm] at hl; cases hl
      | some b0 =>
          rw [hm] at hl
          simp only [shrinkB] at hl
          by_cases hb : b0.erase tx.txId = ∅
          · rw [if_pos hb] at hl
            cases hl
          · rw [if_neg hb] at hl
            cases hl
            have htb0 : t ∈ b0 := Finset.mem_of_mem_erase htb
            have hne : t ≠ tx.txId := Finset.ne_of_mem_erase htb
            obtain ⟨tx0, htx0, hmem⟩ := h.sound i b0 hm t htb0
            refine ⟨tx0, ?_, hmem⟩
            rw [drainCore_lookup_txs, if_neg (fun hh => hne hh.symm)]
            exact htx0
    · rw [if_neg hi] at hl
      obtain ⟨tx0, htx0, hmem⟩ := h.sound i b hl t htb
      have hne : tx.txId ≠ t := by
        intro he
        rw [← he] at htx0
        have := hcons tx0 htx0
        subst this
        exact hi hmem
      refine ⟨tx0, ?_, hmem⟩
      rw [drainCore_lookup_txs, if_neg hne]
      exact htx0
  · intro t tx0 hl i hi
    rw [drainCore_lookup_txs] at hl
    by_cases he : tx.txId = t
    · rw [if_pos he] at hl
      cases hl
    · rw [if_neg he] at hl
      have hold := h.complete t tx0 hl i hi
      show t ∈ (lookupA (drainCore c tx).utxos i).getD ∅
      rw [drainCore_lookup_utxos]
      by_cases hin : i ∈ tx.inputIDs
      · rw [if_pos hin]
        have hbold : t ∈ (lookupA c.utxos i).getD ∅ := hold
        match hm : lookupA c.utxos i with
        | none =>
            rw [hm] at hbold
            exact absurd hbold (Finset.not_mem_empty _)
        | some b0 =>
            rw [hm] at hbold
            simp only [Option.getD_some] at hbold
            have hne : t ≠ tx.txId := fun hh => he hh.symm
            have hmem : t ∈ b0.erase tx.txId := Finset.mem_erase.mpr ⟨hne, hbold⟩
            have hbne : b0.erase tx.txId ≠ ∅ := by
              intro hemp
              rw [hemp] at hmem
              exact Finset.not_mem_empty _ hmem
            simp only [shrinkB, if_neg hbne, Option.getD_some]
            exact hmem
      · rw [if_neg hin]
        exact hold
  · intro tx0 htx0
    exact txConsistent_drainCore c tx tx0 (h.wfA tx0 htx0)
  · intro tx0 htx0
    exact txConsistent_drainCore c tx tx0 (h.wfR tx0 htx0)
  · intro e he
    exact txConsistent_drainCore c tx e.tx (h.wfPA e he)
  · intro e he
    exact txConsistent_drainCore c tx e.tx (h.wfPR e he)

theorem txAbsent_drainCore_self (c : Conflicts) (tx : Tx) (h : CMInv c)
    (hcons : txConsistent c tx) : txAbsent (drainCore c tx) tx.txId := by
  constructor
  · rw [drainCore_lookup_txs, if_pos rfl]
  · intro i b hl
    rw [drainCore_lookup_utxos] at hl
    by_cases hi : i ∈ tx.inputIDs
    · rw [if_pos hi] at hl
      match hm : lookupA c.utxos i with
      | none => rw [hm] at hl; cases hl
      | some b0 =>
          rw [hm] at hl
          simp only [shrinkB] at hl
          by_cases hb : b0.erase tx.txId = ∅
          · rw [if_pos hb] at hl
            cases hl
          · rw [if_neg hb] at hl
            cases hl
            exact Finset.not_mem_erase _ _
    · rw [if_neg hi] at hl
      intro hmem
      obtain ⟨tx0, htx0, hmemi⟩ := h.sound i b hl tx.txId hmem
      have := hcons tx0 htx0
      subst this
      exact hi hmemi

theorem txAbsent_drainCore_mono (c : Conflicts) (tx : Tx) (t : Nat)
    (h : txAbsent c t) : txAbsent (drainCore c tx) t := by
  constructor
  · rw [drainCore_lookup_txs]
    by_cases he : tx.txId = t
    · rw [if_pos he]
    · rw [if_neg he]
      exact h.1
  · intro i b hl
    rw [drainCore_lookup_utxos] at hl
    by_cases hi : i ∈ tx.inputIDs
    · rw [if_pos hi] at hl
      match hm : lookupA c.utxos i with
      | none => rw [hm] at hl; cases hl
      | some b0 =>
          rw [hm] at hl
          simp only [shrinkB] at hl
          by_cases hb : b0.erase tx.txId = ∅
          · rw [if_pos hb] at hl
            cases hl
          · rw [if_neg hb] at hl
            cases hl
            intro hmem
            exact h.2 i b0 hm (Finset.mem_of_mem_erase hmem)
    · rw [if_neg hi] at hl
      exact h.2 i b hl

theorem cmInv_drainAcceptOne (c : Conflicts) (tx : Tx) (h : CMInv c)
    (hcons : txConsistent c tx) : CMInv (drainAcceptOne c tx) := by
  rw [drainAcceptOne_eq]
  exact cmInv_foldFulfillReject _ _
    (cmInv_abandonReject _ _
      (cmInv_fulfillAccept _ _ (cmInv_drainCore c tx h hcons)))

theorem cmInv_drainRejectOne (c : Conflicts) (tx : Tx) (h : CMInv c)
    (hcons : txConsistent c tx) : CMInv (drainRejectOne c tx) := by
  rw [drainRejectOne_eq]
  exact cmInv_fulfillReject _ _
    (cmInv_abandonAccept _ _ (cmInv_drainCore c tx h hcons))

theorem drainAcceptOne_txs (c : Conflicts) (tx : Tx) :
    (drainAcceptOne c tx).txs = eraseA c.txs tx.txId := by
  rw [drainAcceptOne_eq, foldFulfillReject_txs]
  rfl

theorem drainAcceptOne_utxos (c : Conflicts) (tx : Tx) :
    (drainAcceptOne c tx).utxos = removeSpenders c.utxos tx.inputIDs tx.txId := by
  rw [drainAcceptOne_eq, foldFulfillReject_utxos]
  rfl

theorem drainRejectOne_txs (c : Conflicts) (tx : Tx) :
    (drainRejectOne c tx).txs = eraseA c.txs tx.txId := rfl

theorem drainRejectOne_utxos (c : Conflicts) (tx : Tx) :
    (drainRejectOne c tx).utxos = removeSpenders c.utxos tx.inputIDs tx.txId := rfl

theorem txAbsent_drainAcceptOne_self (c : Conflicts) (tx : Tx) (h : CMInv c)
    (hcons : txConsistent c tx) : txAbsent (drainAcceptOne c tx) tx.txId := by
  have hcore := txAbsent_drainCore_self c tx h hcons
  refine txAbsent_of_eq ?_ ?_ tx.txId hcore
  · rw [drainAcceptOne_txs]
    rfl
  · rw [drainAcceptOne_utxos]
    rfl

theorem txAbsent_drainRejectOne_self (c : Conflicts) (tx : Tx) (h : CMInv c)
    (hcons : txConsistent c tx) : txAbsent (drainRejectOne c tx) tx.txId := by
  have hcore := txAbsent_drainCore_self c tx h hcons
  exact txAbsent_of_eq rfl rfl tx.txId hcore

theorem txAbsent_drainAcceptOne_mono (c : Conflicts) (tx : Tx) (t : Nat)
    (h : txAbsent c t) : txAbsent (drainAcceptOne c tx) t := by
  have hcore := txAbsent_drainCore_mono c tx t h
  refine txAbsent_of_eq ?_ ?_ t hcore
  · rw [drainAcceptOne_txs]
    rfl
  · rw [drainAcceptOne_utxos]
    rfl

theorem txAbsent_drainRejectOne_mono (c : Conflicts) (tx : Tx) (t : Nat)
    (h : txAbsent c t) : txAbsent (drainRejectOne c tx) t := by
  have hcore := txAbsent_drainCore_mono c tx t h
  exact txAbsent_of_eq rfl rfl t hcore

theorem txConsistent_drainAcceptOne (c : Conflicts) (tx tx0 : Tx)
    (h : txConsistent c tx0) : txConsistent (drainAcceptOne c tx) tx0 := by
  intro tx' hl
  rw [drainAcceptOne_txs, lookupA_eraseA] at hl
  by_cases he : tx.txId = tx0.txId
  · rw [if_pos he] at hl
    cases hl
  · rw [if_neg he] at hl
    exact h tx' hl

theorem txConsistent_drainRejectOne (c : Conflicts) (tx tx0 : Tx)
    (h : txConsistent c tx0) : txConsistent (drainRejectOne c tx) tx0 := by
  intro tx' hl
  rw [drainRejectOne_txs, lookupA_eraseA] at hl
  by_cases he : tx.txId = tx0.txId
  · rw [if_pos he] at hl
    cases hl
  · rw [if_neg he] at hl
    exact h tx' hl

theorem drainAccept_foldl (l : List Tx) :
    ∀ c : Conflicts, CMInv c → (∀ tx ∈ l, txConsistent c tx) →
      CMInv (l.foldl drainAcceptOne c) ∧
        (∀ tx ∈ l, txAbsent (l.foldl drainAcceptOne c) tx.txId) ∧
        (∀ t, txAbsent c t → txAbsent (l.foldl drainAcceptOne c) t) := by
  induction l with
  | nil =>
      intro c h _
      exact ⟨h, fun tx htx => absurd htx (List.not_mem_nil _), fun t ht => ht⟩
  | cons tx rest ih =>
      intro c h hcons
      have hctx : txConsistent c tx := hcons tx (List.mem_cons_self _ _)
      have h1 : CMInv (drainAcceptOne c tx) := cmInv_drainAcceptOne c tx h hctx
      have hrest : ∀ tx0 ∈ rest, txConsistent (drainAcceptOne c tx) tx0 :=
        fun tx0 htx0 =>
          txConsistent_drainAcceptOne c tx tx0 (hcons tx0 (List.mem_cons_of_mem _ htx0))
      obtain ⟨hI, hA, hM⟩ := ih (drainAcceptOne c tx) h1 hrest
      refine ⟨hI, ?_, ?_⟩
      · intro tx0 htx0
        rcases List.mem_cons.mp htx0 with he | hm
        · subst he
          exact hM tx0.txId (txAbsent_drainAcceptOne_self c tx0 h hctx)
        · exact hA tx0 hm
      · intro t ht
        exact hM t (txAbsent_drainAcceptOne_mono c tx t ht)

theorem drainReject_foldl (l : List Tx) :
    ∀ c : Conflicts, CMInv c → (∀ tx ∈ l, txConsistent c tx) →
      CMInv (l.foldl drainRejectOne c) ∧
        (∀ tx ∈ l, txAbsent (l.foldl drainRejectOne c) tx.txId) ∧
        (∀ t, txAbsent c t → txAbsent (l.foldl drainRejectOne c) t) := by
  induction l with
  | nil =>
      intro c h _
      exact ⟨h, fun tx htx => absurd htx (List.not_mem_nil _), fun t ht => ht⟩
  | cons tx rest ih =>
      intro c h hcons
      have hctx : txConsistent c tx := hcons tx (List.mem_cons_self _ _)
      have h1 : CMInv (drainRejectOne c tx) := cmInv_drainRejectOne c tx h hctx
      have hrest : ∀ tx0 ∈ rest, txConsistent (drainRejectOne c tx) tx0 :=
        fun tx0 htx0 =>
          txConsistent_drainRejectOne c tx tx0 (hcons tx0 (List.mem_cons_of_mem _ htx0))
      obtain ⟨hI, hA, hM⟩ := ih (drainRejectOne c tx) h1 hrest
      refine ⟨hI, ?_, ?_⟩
      · intro tx0 htx0
        rcases List.mem_cons.mp htx0 with he | hm
        · subst he
          exact hM tx0.txId (txAbsent_drainRejectOne_self c tx0 h hctx)
        · exact hA tx0 hm
      · intro t ht
        exact hM t (txAbsent_drainRejectOne_mono c tx t ht)

theorem cmInv_clearAcceptable (c : Conflicts) (h : CMInv c) :
    CMInv { c with acceptable := [] } := by
  refine ⟨h.keyed, h.nonempty, h.sound, ?_, ?_, ?_, ?_, ?_⟩
  · intro t tx hl
    exact h.complete t tx hl
  · intro tx htx
    exact absurd htx (List.not_mem_nil _)
  · intro tx htx
    exact txConsistent_of_txs_eq rfl tx (h.wfR tx htx)
  · intro e he
    exact txConsistent_of_txs_eq rfl _ (h.wfPA e he)
  · intro e he
    exact txConsistent_of_txs_eq rfl _ (h.wfPR e he)

theorem cmInv_clearRejectable (c : Conflicts) (h : CMInv c) :
    CMInv { c with rejectable := [] } := by
  refine ⟨h.keyed, h.nonempty, h.sound, ?_, ?_, ?_, ?_, ?_⟩
  · intro t tx hl
    exact h.complete t tx hl
  · intro tx htx
    exact txConsistent_of_txs_eq rfl tx (h.wfA tx htx)
  · intro tx htx
    exact absurd htx (List.not_mem_nil _)
  · intro e he
    exact txConsistent_of_txs_eq rfl _ (h.wfPA e he)
  · intro e he
    exact txConsistent_of_txs_eq rfl _ (h.wfPR e he)

theorem updateable_unfold (c : Conflicts) :
    c.Updateable =
      (c.acceptable,
        (c.acceptable.foldl drainAcceptOne { c with acceptable := [] }).rejectable,
        ((c.acceptable.foldl drainAcceptOne
            { c with acceptable := [] }).rejectable).foldl drainRejectOne
          { c.acceptable.foldl drainAcceptOne { c with acceptable := [] } with
              rejectable := [] }) := rfl

theorem cmInv_updateable (c : Conflicts) (h : CMInv c) :
    CMInv c.Updateable.2.2 ∧
      ∀ tx ∈ c.Updateable.1 ++ c.Updateable.2.1,
        txAbsent c.Updateable.2.2 tx.txId := by
  rw [updateable_unfold]
  have h1 : CMInv { c with acceptable := [] } := cmInv_clearAcceptable c h
  have hconsA : ∀ tx ∈ c.acceptable, txConsistent { c with acceptable := [] } tx :=
    fun tx htx => txConsistent_of_txs_eq rfl tx (h.wfA tx htx)
  obtain ⟨h2, hA2, hM2⟩ :=
    drainAccept_foldl c.acceptable { c with acceptable := [] } h1 hconsA
  set c2 := c.acceptable.foldl drainAcceptOne { c with acceptable := [] } with hc2
  have h3 : CMInv { c2 with rejectable := [] } := cmInv_clearRejectable c2 h2
  have hconsR : ∀ tx ∈ c2.rejectable, txConsistent { c2 with rejectable := [] } tx :=
    fun tx htx => txConsistent_of_txs_eq rfl tx (h2.wfR tx htx)
  obtain ⟨h4, hA4, hM4⟩ :=
    drainReject_foldl c2.rejectable { c2 with rejectable := [] } h3 hconsR
  refine ⟨h4, ?_⟩
  intro tx htx
  rcases List.mem_append.mp htx with hacc | hrej
  · have habs2 : txAbsent c2 tx.txId := hA2 tx hacc
    have habs3 : txAbsent { c2 with rejectable := [] } tx.txId :=
      txAbsent_of_eq rfl rfl tx.txId habs2
    exact hM4 tx.txId habs3
  · exact hA4 tx hrej

theorem cmInv_reachable (c : Conflicts) (h : CMReachable c) : CMInv c := by
  induction h with
  | init => exact cmInv_new
  | step hr hs ih =>
      cases hs with
      | add tx hf => exact cmInv_add _ tx ih hf
      | accept txID c' ha => exact cmInv_accept _ txID _ ih ha
      | updateable => exact (cmInv_updateable _ ih).1

theorem mem_foldl_union {α : Type} (f : Nat → Finset α) [DecidableEq α]
    (l : List Nat) :
    ∀ (s : Finset α) (t : α),
      t ∈ l.foldl (fun s i => s ∪ f i) s ↔ t ∈ s ∨ ∃ i ∈ l, t ∈ f i := by
  induction l with
  | nil => intro s t; simp
  | cons a rest ih =>
      intro s t
      rw [List.foldl_cons, ih]
      constructor
      · rintro (hm | ⟨i, hi, hf⟩)
        · rcases Finset.mem_union.mp hm with hm | hm
          · exact Or.inl hm
          · exact Or.inr ⟨a, List.mem_cons_self _ _, hm⟩
        · exact Or.inr ⟨i, List.mem_cons_of_mem _ hi, hf⟩
      · rintro (hm | ⟨i, hi, hf⟩)
        · exact Or.inl (Finset.mem_union_left _ hm)
        · rcases List.mem_cons.mp hi with he | hm2
          · subst he
            exact Or.inl (Finset.mem_union_right _ hf)
          · exact Or.inr ⟨i, hm2, hf⟩

theorem mem_conflictsOf (c : Conflicts) (tx : Tx) (t : Nat) :
    t ∈ c.conflictsOf tx ↔ ∃ i ∈ tx.inputIDs, t ∈ c.bucketD i := by
  unfold Conflicts.conflictsOf
  rw [mem_foldl_union]
  simp

/-- Transactions used to build concrete reachable witness states. -/
def txW1 : Tx := ⟨1, [10], []⟩

def txW2 : Tx := ⟨2, [10], []⟩

def txW5 : Tx := ⟨5, [10, 11], []⟩

def cW1 : Conflicts := Conflicts.New.Add txW1

def cW2 : Conflicts := { cW1 with acceptable := [txW1] }

theorem cW1_reachable : CMReachable cW1 :=
  CMReachable.step CMReachable.init (CMStep.add Conflicts.New txW1 (by decide))

theorem cW2_reachable : CMReachable cW2 :=
  CMReachable.step cW1_reachable (CMStep.accept cW1 1 cW2 (by decide))

/-- C1: in every reachable conflict-manager state, after a call to
Updateable every drained tx (acceptable or rejectable) has its id absent
from the txs map and from every bucket of the utxos map, and no bucket of
the resulting utxos map is empty (buckets emptied by the removal are
deleted). -/
theorem updateable_symmetric_removal (c : Conflicts) (h : CMReachable c) :
    (∀ tx ∈ c.Updateable.1 ++ c.Updateable.2.1,
        lookupA c.Updateable.2.2.txs tx.txId = none ∧
          ∀ i b, lookupA c.Updateable.2.2.utxos i = some b → tx.txId ∉ b) ∧
      ∀ i b, lookupA c.Updateable.2.2.utxos i = some b → b ≠ ∅ := by
  have hInv := cmInv_reachable c h
  obtain ⟨h4, habs⟩ := cmInv_updateable c hInv
  exact ⟨fun tx htx => habs tx htx, h4.nonempty⟩

theorem updateable_symmetric_removal_witness :
    cW2.Updateable.1 = [txW1] ∧
      lookupA cW2.Updateable.2.2.txs txW1.txId = none ∧
      ∀ i b, lookupA cW2.Updateable.2.2.utxos i = some b → txW1.txId ∉ b := by
  have hmem : txW1 ∈ cW2.Updateable.1 ++ cW2.Updateable.2.1 := by decide
  have := (updateable_symmetric_removal cW2 cW2_reachable).1 txW1 hmem
  exact ⟨by decide, this.1, this.2⟩

/-- C9: in every reachable conflict-manager state, the utxos map has no
empty spender bucket: every key maps to a non-empty set, and every member
of a bucket is the id of a currently processing tx. -/
theorem utxos_no_empty_bucket (c : Conflicts) (h : CMReachable c) :
    ∀ i b, lookupA c.utxos i = some b →
      b ≠ ∅ ∧ ∀ t ∈ b, ∃ tx, lookupA c.txs t = some tx := by
  intro i b hl
  have hInv := cmInv_reachable c h
  refine ⟨hInv.nonempty i b hl, ?_⟩
  intro t ht
  obtain ⟨tx, htx, _⟩ := hInv.sound i b hl t ht
  exact ⟨tx, htx⟩

theorem utxos_no_empty_bucket_witness :
    ({1} : Finset Nat) ≠ ∅ ∧
      ∀ t ∈ ({1} : Finset Nat), ∃ tx, lookupA cW1.txs t = some tx :=
  utxos_no_empty_bucket cW1 cW1_reachable 10 {1} (by decide)

/-- C3: in every reachable conflict-manager state, IsVirtuous tx is true
iff every spender bucket of an input of tx is empty, equivalently iff no
processing tx spends any input of tx. -/
theorem isVirtuous_iff_no_spender (c : Conflicts) (tx : Tx)
    (h : CMReachable c) :
    (c.IsVirtuous tx = true ↔ ∀ i ∈ tx.inputIDs, c.bucketD i = ∅) ∧
      (c.IsVirtuous tx = true ↔
        ∀ t tx', lookupA c.txs t = some tx' →
          ∀ i ∈ tx.inputIDs, i ∉ tx'.inputIDs) := by
  have hInv := cmInv_reachable c h
  have hfirst : c.IsVirtuous tx = true ↔ ∀ i ∈ tx.inputIDs, c.bucketD i = ∅ := by
    unfold Conflicts.IsVirtuous
    rw [List.all_eq_true]
    constructor
    · intro hall i hi
      have := hall i hi
      rw [Option.isNone_iff_eq_none] at this
      unfold Conflicts.bucketD
      rw [this]
      rfl
    · intro hall i hi
      rw [Option.isNone_iff_eq_none]
      match hm : lookupA c.utxos i with
      | none => rfl
      | some b =>
          have hbd := hall i hi
          unfold Conflicts.bucketD at hbd
          rw [hm] at hbd
          simp only [Option.getD_some] at hbd
          exact absurd hbd (hInv.nonempty i b hm)
  refine ⟨hfirst, hfirst.trans ?_⟩
  constructor
  · intro hall t tx' hl i hi hmem
    have hbd := hall i hi
    have := hInv.complete t tx' hl i hmem
    rw [hbd] at this
    exact Finset.not_mem_empty _ this
  · intro hno i hi
    match hm : lookupA c.utxos i with
    | none =>
        unfold Conflicts.bucketD
        rw [hm]
        rfl
    | some b =>
        exfalso
        have hne := hInv.nonempty i b hm
        obtain ⟨t, ht⟩ := Finset.nonempty_iff_ne_empty.mpr hne
        obtain ⟨tx', htx', hmem⟩ := hInv.sound i b hm t ht
        exact hno t tx' htx' i hi hmem

theorem isVirtuous_iff_no_spender_witness :
    (cW1.IsVirtuous txW2 = true ↔ ∀ i ∈ txW2.inputIDs, cW1.bucketD i = ∅) ∧
      (cW1.IsVirtuous txW2 = true ↔
        ∀ t tx', lookupA cW1.txs t = some tx' →
          ∀ i ∈ txW2.inputIDs, i ∉ tx'.inputIDs) :=
  isVirtuous_iff_no_spender cW1 txW2 cW1_reachable

/-- C2 counterexample: the source computes Conflicts(tx) as the plain union
of the spender buckets and never removes tx.id, so for a tx that is already
processing the returned set does contain the tx's own id, refuting the
claim for processing txs. -/
theorem conflicts_contains_self_counterexample :
    CMReachable cW1 ∧ txW1.txId ∈ cW1.conflictsOf txW1 :=
  ⟨cW1_reachable, by decide⟩

/-- C2 amended: for every reachable state and every tx that is not
currently processing (the documented precondition of Conflicts.Conflicts),
the returned set is exactly the union of the spender buckets of the tx's
inputs, removing tx.id is a no-op on it, and it never contains tx.id. -/
theorem conflicts_eq_union_minus_self (c : Conflicts) (tx : Tx)
    (h : CMReachable c) (hnp : lookupA c.txs tx.txId = none) :
    tx.txId ∉ c.conflictsOf tx ∧
      c.conflictsOf tx \ {tx.txId} = c.conflictsOf tx ∧
      ∀ t, t ∈ c.conflictsOf tx ↔ ∃ i ∈ tx.inputIDs, t ∈ c.bucketD i := by
  have hInv := cmInv_reachable c h
  have hnotin : tx.txId ∉ c.conflictsOf tx := by
    intro hmem
    obtain ⟨i, _, hb⟩ := (mem_conflictsOf c tx tx.txId).mp hmem
    unfold Conflicts.bucketD at hb
    match hm : lookupA c.utxos i with
    | none =>
        rw [hm] at hb
        exact Finset.not_mem_empty _ hb
    | some b =>
        rw [hm] at hb
        simp only [Option.getD_some] at hb
        obtain ⟨tx', htx', _⟩ := hInv.sound i b hm tx.txId hb
        rw [hnp] at htx'
        cases htx'
  refine ⟨hnotin, ?_, fun t => mem_conflictsOf c tx t⟩
  ext t
  simp only [Finset.mem_sdiff, Finset.mem_singleton]
  constructor
  · exact fun ht => ht.1
  · intro ht
    refine ⟨ht, ?_⟩
    intro he
    rw [he] at ht
    exact hnotin ht

theorem conflicts_eq_union_minus_self_witness :
    txW5.txId ∉ cW1.conflictsOf txW5 ∧
      cW1.conflictsOf txW5 \ {txW5.txId} = cW1.conflictsOf txW5 ∧
      ∀ t, t ∈ cW1.conflictsOf txW5 ↔ ∃ i ∈ txW5.inputIDs, t ∈ cW1.bucketD i :=
  conflicts_eq_union_minus_self cW1 txW5 cW1_reachable (by decide)

/-- C10: Accept is safe exactly under the precondition that the tx id is a
key of txs: then it returns a new state in which an acceptor is registered
whose dependency set is exactly the ids of the tx's dependencies whose
status is not Accepted (firing immediately into the acceptable queue when
that set is empty); for an id that is not a key the Go lookup yields a nil
tx and Accept dereferences it, modelled as the none result, and that
failure branch is reached for every state whose txs map misses the id. -/
theorem accept_processing_safety (c : Conflicts) (txID : Nat) (tx : Tx)
    (h : lookupA c.txs txID = some tx) :
    (∃ c', c.Accept txID = some c' ∧
      ((unacceptedDeps tx = ∅ ∧ c'.acceptable = c.acceptable ++ [tx] ∧
          c'.pendingAccept = c.pendingAccept) ∨
        (unacceptedDeps tx ≠ ∅ ∧
          c'.pendingAccept = c.pendingAccept ++ [⟨unacceptedDeps tx, tx⟩] ∧
          c'.acceptable = c.acceptable)) ∧
      (∀ i, i ∈ unacceptedDeps tx ↔
        ∃ d ∈ tx.deps, d.depId = i ∧ d.status ≠ Status.Accepted)) ∧
    ∀ c0 : Conflicts, lookupA c0.txs txID = none → c0.Accept txID = none := by
  constructor
  · refine ⟨c.registerAccept (unacceptedDeps tx) tx, ?_, ?_, ?_⟩
    · unfold Conflicts.Accept
      rw [h]
    · unfold Conflicts.registerAccept
      by_cases hd : unacceptedDeps tx = ∅
      · rw [if_pos hd]
        exact Or.inl ⟨hd, rfl, rfl⟩
      · rw [if_neg hd]
        exact Or.inr ⟨hd, rfl, rfl⟩
    · intro i
      unfold unacceptedDeps
      rw [List.mem_toFinset, List.mem_map]
      constructor
      · rintro ⟨d, hd, he⟩
        have hd2 := List.mem_filter.mp hd
        refine ⟨d, hd2.1, he, ?_⟩
        have := hd2.2
        simpa using this
      · rintro ⟨d, hd, he, hs⟩
        refine ⟨d, List.mem_filter.mpr ⟨hd, by simpa using hs⟩, he⟩
  · intro c0 h0
    unfold Conflicts.Accept
    rw [h0]

theorem accept_processing_safety_witness :
    (∃ c', cW1.Accept 1 = some c' ∧
      ((unacceptedDeps txW1 = ∅ ∧ c'.acceptable = cW1.acceptable ++ [txW1] ∧
          c'.pendingAccept = cW1.pendingAccept) ∨
        (unacceptedDeps txW1 ≠ ∅ ∧
          c'.pendingAccept = cW1.pendingAccept ++ [⟨unacceptedDeps txW1, txW1⟩] ∧
          c'.acceptable = cW1.acceptable)) ∧
      (∀ i, i ∈ unacceptedDeps txW1 ↔
        ∃ d ∈ txW1.deps, d.depId = i ∧ d.status ≠ Status.Accepted)) ∧
    ∀ c0 : Conflicts, lookupA c0.txs 1 = none → c0.Accept 1 = none :=
  accept_processing_safety cW1 1 txW1 (by decide)

/-!
AVM managed-asset verification (VM.verifyOperation, src/unnamed/part_001
lines 947-991).  The collaborators getUTXO, getFx, verifyFxUsage,
state.ManagedAssetStatus and fx.VerifyOperation live outside the verified
core and appear as an environment record; epochs are uint32 values, so the
comparison written epoch <= epochLastUpdated+1 in Go wraps the sum modulo
2^32. -/

inductive OpError where
  | utxoFetch : OpError
  | assetIDMismatch : OpError
  | fxLookup : OpError
  | incompatibleFx : OpError
  | statusFetch : OpError
  | updateEpoch : Nat → Nat → OpError
  | fxVerify : OpError
deriving DecidableEq, Repr

/-- Collaborator outcomes consumed by verifyOperation. -/
structure OpEnv where
  getUTXOAsset : Nat → Option Nat
  getFxOK : Bool
  fxUsageOK : Bool
  managedAssetStatus : Option Nat
  fxVerifyOK : Bool

/-- The utxo loop of verifyOperation: fetch each utxo and compare its asset
id with the operation's. -/
def checkOpUTXOs (env : OpEnv) (opAssetID : Nat) : List Nat → Option OpError
  | [] => none
  | u :: rest =>
      match env.getUTXOAsset u with
      | none => some OpError.utxoFetch
      | some a =>
          if a ≠ opAssetID then some OpError.assetIDMismatch
          else checkOpUTXOs env opAssetID rest

/-- VM.verifyOperation.  The result none is success; some e is the error
returned.  The managed-asset branch reads the epoch of the last status
update and rejects when epoch <= epochLastUpdated+1 computed in uint32
arithmetic. -/
def verifyOperation (env : OpEnv) (epoch : Nat) (opAssetID : Nat)
    (utxoIDs : List Nat) (isUpdateManagedAsset : Bool) : Option OpError :=
  match checkOpUTXOs env opAssetID utxoIDs with
  | some e => some e
  | none =>
      if !env.getFxOK then some OpError.fxLookup
      else if !env.fxUsageOK then some OpError.incompatibleFx
      else if isUpdateManagedAsset then
        match env.managedAssetStatus with
        | none => some OpError.statusFetch
        | some last =>
            if epoch ≤ (last + 1) % 4294967296 then
              some (OpError.updateEpoch epoch last)
            else if env.fxVerifyOK then none else some OpError.fxVerify
      else if env.fxVerifyOK then none else some OpError.fxVerify

/-- An environment in which every collaborator succeeds. -/
def envAllOK : OpEnv := ⟨fun _ => some 7, true, true, some 4294967295, true⟩

/-- C4 counterexample: with the stored last-update epoch at the top uint32
value 4294967295, the Go sum epochLastUpdated+1 wraps to 0, so a tx in
epoch 5 passes the epoch gate and verification succeeds although
5 <= last_updated_epoch + 1 holds in unbounded arithmetic, where the claim
demands failure. -/
theorem verifyOperation_epoch_overflow_counterexample :
    verifyOperation envAllOK 5 7 [] true = none ∧ 5 ≤ 4294967295 + 1 := by
  constructor
  · decide
  · norm_num

/-- C4 amended: whenever the stored last-update epoch does not make the
uint32 sum last+1 wrap (last <= 2^32 - 2), an update-managed-asset
operation verifies successfully only if the tx epoch is at least last+2,
and verification returns an error whenever the tx epoch is at most
last+1. -/
theorem verifyOperation_update_epoch_gate (env : OpEnv) (epoch last : Nat)
    (opAssetID : Nat) (utxoIDs : List Nat)
    (hst : env.managedAssetStatus = some last)
    (hnof : last + 1 < 4294967296) :
    (verifyOperation env epoch opAssetID utxoIDs true = none →
        last + 2 ≤ epoch) ∧
      (epoch ≤ last + 1 →
        verifyOperation env epoch opAssetID utxoIDs true ≠ none) := by
  have hmod : (last + 1) % 4294967296 = last + 1 := Nat.mod_eq_of_lt hnof
  unfold verifyOperation
  match hck : checkOpUTXOs env opAssetID utxoIDs with
  | some e =>
      constructor
      · intro h
        cases h
      · intro _ h
        cases h
  | none =>
      by_cases hfx : env.getFxOK
      · by_cases hus : env.fxUsageOK
        · simp only [hfx, hus, Bool.not_true, Bool.false_eq_true, if_false,
            hst, hmod]
          by_cases hcmp : epoch ≤ last + 1
          · rw [if_pos hcmp]
            constructor
            · intro h
              cases h
            · intro _ h
              cases h
          · rw [if_neg hcmp]
            constructor
            · intro _
              omega
            · intro hle
              exact absurd hle hcmp
        · simp only [hfx, hus, Bool.not_true, Bool.false_eq_true, if_false,
            Bool.not_false, if_true]
          constructor
          · intro h
            cases h
          · intro _ h
            cases h
      · simp only [hfx, Bool.not_false, if_true]
        constructor
        · intro h
          cases h
        · intro _ h
          cases h

/-- Environment for the C4 witness: status last updated in epoch 3. -/
def envEpoch3 : OpEnv := ⟨fun _ => some 7, true, true, some 3, true⟩

theorem verifyOperation_update_epoch_gate_witness :
    (verifyOperation envEpoch3 4 7 [] true = none → 3 + 2 ≤ 4) ∧
      (4 ≤ 3 + 1 → verifyOperation envEpoch3 4 7 [] true ≠ none) :=
  verifyOperation_update_epoch_gate envEpoch3 4 3 7 [] rfl (by norm_num)

/-!
PlatformVM health check (VM.HealthChecks, src/unnamed/part_000).  The
isWellConnected closure compares the connected-stake fraction with the
hard-coded literal 0.5 carrying a TODO to use the real alpha; fractions are
modelled as rationals. -/

/-- The isWellConnected check: true means healthy (no error returned).  The
source tests percentConnected < 0.5 with 0.5 hard-coded. -/
def isWellConnectedCheck (percentConnected : ℚ) : Bool :=
  if percentConnected < 1 / 2 then false else true

/-- C5: the code contradicts its own TODO comments (put actual alpha here):
with a configured quorum fraction of 4/5 and a connected fraction of 3/5,
the claim requires the health check to fail (3/5 < 4/5), yet the hard-coded
comparison with 1/2 reports healthy. -/
theorem isWellConnected_hardcoded_half_bug :
    isWellConnectedCheck (3 / 5) = true ∧ (3 / 5 : ℚ) < 4 / 5 := by
  constructor
  · have h : ¬ ((3 : ℚ) / 5 < 1 / 2) := by norm_num
    rw [isWellConnectedCheck, if_neg h]
  · norm_num

/-!
Vertex issuer (issuer.Update, src/snow/engine/avalanche/issuer.go).  The
issuer fields and the collaborator answers it consults are the state
record; the observable effects of one Update call (batch calls issued,
abandonment, insertion into consensus) form the outcome record. -/

/-- One transaction of the pending vertex, with the answers tx.Verify()
and Consensus.TransitionProcessing(transitionID) return for it. -/
structure VtxTx where
  transitionID : Nat
  verifyOK : Bool
  transitionProcessing : Bool
deriving DecidableEq, Repr

/-- The issuer state read by Update. -/
structure IssuerState where
  abandoned : Bool
  issued : Bool
  vtxDeps : List Nat
  unfulfilledDeps : List Nat
  vtxInConsensus : Bool
  errored : Bool
  updatedEpoch : Bool
  vtxEpoch : Nat
  currentEpoch : Nat
  txs : List VtxTx
deriving DecidableEq, Repr

/-- Arguments of one call to Transitive.batch. -/
structure BatchCall where
  epoch : Nat
  transitions : List Nat
  restrictions : List (List Nat)
  force : Bool
  emptyFlag : Bool
  updatedEpoch : Bool
deriving DecidableEq, Repr

/-- Observable effects of one issuer.Update call. -/
structure UpdateOutcome where
  returnedEarly : Bool
  issuedSet : Bool
  batches : List BatchCall
  abandonedVtx : Bool
  addedToConsensus : Bool
deriving DecidableEq, Repr

/-- issuer.Update.  Restrictions are nil (the empty list of groups) except
in the invalid-transactions branch with updatedEpoch set, where they are
the one group listing the invalid transition ids. -/
def issuerUpdate (i : IssuerState) : UpdateOutcome :=
  if i.abandoned || i.issued || decide (i.vtxDeps ≠ []) ||
      decide (i.unfulfilledDeps ≠ []) || i.vtxInConsensus || i.errored then
    ⟨true, false, [], false, false⟩
  else
    let validTransitions := (i.txs.filter fun t => t.verifyOK).map VtxTx.transitionID
    let invalidTransitions :=
      (i.txs.filter fun t => !t.verifyOK).map VtxTx.transitionID
    let unissued :=
      (i.txs.filter fun t => t.verifyOK && !t.transitionProcessing).map
        VtxTx.transitionID
    if validTransitions.length ≠ i.txs.length then
      if i.updatedEpoch then
        ⟨false, true,
          [⟨i.vtxEpoch, validTransitions, [invalidTransitions], false, false,
            true⟩], true, false⟩
      else
        ⟨false, true,
          [⟨i.vtxEpoch, validTransitions, [], false, false, true⟩], true, false⟩
    else
      let reissue : List BatchCall :=
        if i.vtxEpoch ≠ i.currentEpoch ∧ unissued ≠ [] then
          [⟨i.currentEpoch, unissued, [], true, false, true⟩]
        else []
      if i.currentEpoch < i.vtxEpoch then ⟨false, true, reissue, true, false⟩
      else ⟨false, true, reissue, false, true⟩

/-- Issuer state for the C7 counterexample: one invalid transaction, the
vertex sits in epoch 3 while the node's current epoch is 7. -/
def issuerW : IssuerState :=
  ⟨false, false, [], [], false, false, true, 3, 7,
    [⟨100, false, false⟩, ⟨101, true, true⟩]⟩

/-- C7 counterexample: with an invalid transaction and updatedEpoch set,
Update batches the valid transitions into the vertex's epoch (3), not into
the current epoch (7) as the claim states; it does abandon the vertex and
does not add it to consensus. -/
theorem issuer_batch_epoch_counterexample :
    issuerUpdate issuerW =
        ⟨false, true, [⟨3, [101], [[100]], false, false, true⟩], true, false⟩ ∧
      issuerW.currentEpoch = 7 ∧ (3 : Nat) ≠ 7 := by
  refine ⟨by decide, rfl, by decide⟩

theorem length_filter_lt_of_exists_not {α : Type} (p : α → Bool)
    (l : List α) (h : ∃ x ∈ l, p x = false) :
    (l.filter p).length < l.length := by
  induction l with
  | nil => simp at h
  | cons a rest ih =>
      obtain ⟨x, hx, hpx⟩ := h
      rcases List.mem_cons.mp hx with he | hm
      · subst he
        have hle := List.length_filter_le p rest
        simp [List.filter_cons, hpx]
        omega
      · have hlt := ih ⟨x, hm, hpx⟩
        by_cases hpa : p a = true
        · simp [List.filter_cons, hpa]
          omega
        · simp only [Bool.not_eq_true] at hpa
          simp [List.filter_cons, hpa]
          omega

/-- C7 amended: when the dependency gate passes, some transaction fails
verification and updatedEpoch is set, Update issues exactly one batch call
carrying the valid transitions, into the VERTEX's epoch, with one
restriction group listing the invalid transition ids, force and empty
false and updatedEpoch true; it abandons the vertex and never adds it to
consensus. -/
theorem issuer_update_invalid_batches_vertex_epoch (i : IssuerState)
    (hab : i.abandoned = false) (his : i.issued = false)
    (hvd : i.vtxDeps = []) (hud : i.unfulfilledDeps = [])
    (hvc : i.vtxInConsensus = false) (herr : i.errored = false)
    (hinvalid : ∃ t ∈ i.txs, t.verifyOK = false)
    (hupd : i.updatedEpoch = true) :
    issuerUpdate i =
      ⟨false, true,
        [⟨i.vtxEpoch, (i.txs.filter fun t => t.verifyOK).map VtxTx.transitionID,
          [(i.txs.filter fun t => !t.verifyOK).map VtxTx.transitionID],
          false, false, true⟩], true, false⟩ := by
  have hlen : ((i.txs.filter fun t => t.verifyOK).map VtxTx.transitionID).length ≠
      i.txs.length := by
    rw [List.length_map]
    have := length_filter_lt_of_exists_not (fun t => t.verifyOK) i.txs hinvalid
    omega
  unfold issuerUpdate
  rw [hab, his, hvd, hud, hvc, herr]
  rw [if_neg (by decide), if_pos hlen, if_pos hupd]

theorem issuer_update_invalid_batches_vertex_epoch_witness :
    issuerUpdate issuerW =
      ⟨false, true,
        [⟨issuerW.vtxEpoch,
          (issuerW.txs.filter fun t => t.verifyOK).map VtxTx.transitionID,
          [(issuerW.txs.filter fun t => !t.verifyOK).map VtxTx.transitionID],
          false, false, true⟩], true, false⟩ :=
  issuer_update_invalid_batches_vertex_epoch issuerW rfl rfl rfl rfl rfl rfl
    ⟨⟨100, false, false⟩, by decide, rfl⟩ rfl

/-!
Stateless vertex builder (Build, src/snow/engine/avalanche/vertex/builder.go).
Build sorts the parent ids and restrictions bytewise (ids.SortIDs) and the
transition byte arrays by their hash (SortHashOf), then marshals the inner
vertex and hashes the bytes into the vertex id.  Byte arrays are lists of
naturals; the hash and the codec are environment functions, with the hash
assumed collision-free on the transitions at hand. -/

/-- Insertion into a list sorted by a numeric key. -/
def insertByKey {α : Type} (key : α → Nat) (a : α) : List α → List α
  | [] => [a]
  | b :: rest =>
      if key a ≤ key b then a :: b :: rest else b :: insertByKey key a rest

/-- Sorting by a numeric key (insertion sort). -/
def sortByKey {α : Type} (key : α → Nat) (l : List α) : List α :=
  l.foldr (insertByKey key) []

theorem perm_insertByKey {α : Type} (key : α → Nat) (a : α) :
    ∀ l : List α, (insertByKey key a l).Perm (a :: l) := by
  intro l
  induction l with
  | nil => exact List.Perm.refl _
  | cons b rest ih =>
      unfold insertByKey
      by_cases h : key a ≤ key b
      · rw [if_pos h]
      · rw [if_neg h]
        exact (ih.cons b).trans (List.Perm.swap a b rest)

theorem perm_sortByKey {α : Type} (key : α → Nat) (l : List α) :
    (sortByKey key l).Perm l := by
  induction l with
  | nil => exact List.Perm.refl _
  | cons a rest ih =>
      have h1 : sortByKey key (a :: rest) = insertByKey key a (sortByKey key rest) := rfl
      rw [h1]
      exact (perm_insertByKey key a (sortByKey key rest)).trans (ih.cons a)

theorem sorted_insertByKey {α : Type} (key : α → Nat) (a : α) (l : List α)
    (h : List.Sorted (fun x y => key x ≤ key y) l) :
    List.Sorted (fun x y => key x ≤ key y) (insertByKey key a l) := by
  induction l with
  | nil => simp [insertByKey]
  | cons b rest ih =>
      rw [List.sorted_cons] at h
      unfold insertByKey
      by_cases hab : key a ≤ key b
      · rw [if_pos hab, List.sorted_cons]
        refine ⟨?_, List.sorted_cons.mpr h⟩
        intro c hc
        rcases List.mem_cons.mp hc with he | hm
        · subst he
          exact hab
        · exact le_trans hab (h.1 c hm)
      · rw [if_neg hab, List.sorted_cons]
        refine ⟨?_, ih h.2⟩
        intro c hc
        have hc2 := (perm_insertByKey key a rest).mem_iff.mp hc
        rcases List.mem_cons.mp hc2 with he | hm
        · subst he
          exact Nat.le_of_not_le hab
        · exact h.1 c hm

theorem sorted_sortByKey {α : Type} (key : α → Nat) (l : List α) :
    List.Sorted (fun x y => key x ≤ key y) (sortByKey key l) := by
  induction l with
  | nil => simp [sortByKey]
  | cons a rest ih => exact sorted_insertByKey key a (sortByKey key rest) ih

theorem sorted_key_perm_eq {α : Type} (key : α → Nat) :
    ∀ l1 l2 : List α, l1.Perm l2 →
      List.Sorted (fun x y => key x ≤ key y) l1 →
      List.Sorted (fun x y => key x ≤ key y) l2 →
      (∀ a ∈ l1, ∀ b ∈ l1, key a = key b → a = b) → l1 = l2 := by
  intro l1
  induction l1 with
  | nil =>
      intro l2 hp _ _ _
      exact (List.Perm.eq_nil hp.symm).symm
  | cons a t1 ih =>
      intro l2 hp hs1 hs2 hinj
      match l2 with
      | [] => exact absurd (List.Perm.eq_nil hp) (by simp)
      | b :: t2 =>
          have hmem_a : a ∈ b :: t2 := hp.mem_iff.mp (List.mem_cons_self _ _)
          have hmem_b : b ∈ a :: t1 := hp.mem_iff.mpr (List.mem_cons_self _ _)
          have hab : a = b := by
            rcases List.mem_cons.mp hmem_a with he | hma
            · exact he
            · rcases List.mem_cons.mp hmem_b with he | hmb
              · exact he.symm
              · have h1 : key a ≤ key b :=
                  (List.sorted_cons.mp hs1).1 b hmb
                have h2 : key b ≤ key a :=
                  (List.sorted_cons.mp hs2).1 a hma
                exact hinj a (List.mem_cons_self _ _) b
                  (List.mem_cons_of_mem _ hmb) (Nat.le_antisymm h1 h2)
          subst hab
          have hpt : t1.Perm t2 := hp.cons_inv
          have heq : t1 = t2 :=
            ih t2 hpt (List.sorted_cons.mp hs1).2 (List.sorted_cons.mp hs2).2
              (fun x hx y hy hk =>
                hinj x (List.mem_cons_of_mem _ hx) y (List.mem_cons_of_mem _ hy) hk)
          rw [heq]

theorem sortByKey_eq_of_perm {α : Type} (key : α → Nat) (l1 l2 : List α)
    (hp : l1.Perm l2)
    (hinj : ∀ a ∈ l1, ∀ b ∈ l1, key a = key b → a = b) :
    sortByKey key l1 = sortByKey key l2 := by
  refine sorted_key_perm_eq key (sortByKey key l1) (sortByKey key l2)
    ((perm_sortByKey key l1).trans (hp.trans (perm_sortByKey key l2).symm))
    (sorted_sortByKey key l1) (sorted_sortByKey key l2) ?_
  intro a ha b hb hk
  exact hinj a ((perm_sortByKey key l1).mem_iff.mp ha)
    b ((perm_sortByKey key l1).mem_iff.mp hb) hk

/-- The inner stateless vertex whose canonical bytes are marshalled. -/
structure InnerStatelessVertex where
  version : Nat
  chainID : Nat
  height : Nat
  epoch : Nat
  parentIDs : List Nat
  transitions : List (List Nat)
  restrictions : List Nat
deriving DecidableEq, Repr

/-- Build: sort parent ids, transitions (by hash) and restrictions, pick
the codec version from the epoch, verify the inner vertex, marshal it and
hash the bytes into the vertex id.  Returns the serialized bytes and the
id, or none when Verify rejects. -/
def Build (hash : List Nat → Nat) (marshal : InnerStatelessVertex → List Nat)
    (verify : InnerStatelessVertex → Bool) (chainID height epoch : Nat)
    (parentIDs : List Nat) (trs : List (List Nat)) (restrictions : List Nat) :
    Option (List Nat × Nat) :=
  let ps := sortByKey (fun n => n) parentIDs
  let ts := sortByKey hash trs
  let rs := sortByKey (fun n => n) restrictions
  let version := if epoch = 0 then 0 else 1
  let inner : InnerStatelessVertex :=
    ⟨version, chainID, height, epoch, ps, ts, rs⟩
  if verify inner then
    some (marshal inner, hash (marshal inner))
  else none

/-- C8: Build is insensitive to the order in which parent ids, transition
byte arrays and restrictions are supplied: for any permutations of the
three lists (hash collision-free on the transitions), the serialized bytes
and the vertex id coincide. -/
theorem build_canonical (hash : List Nat → Nat)
    (marshal : InnerStatelessVertex → List Nat)
    (verify : InnerStatelessVertex → Bool) (chainID height epoch : Nat)
    (p1 p2 : List Nat) (t1 t2 : List (List Nat)) (r1 r2 : List Nat)
    (hp : p1.Perm p2) (ht : t1.Perm t2) (hr : r1.Perm r2)
    (hinj : ∀ a ∈ t1, ∀ b ∈ t1, hash a = hash b → a = b) :
    Build hash marshal verify chainID height epoch p1 t1 r1 =
      Build hash marshal verify chainID height epoch p2 t2 r2 := by
  have hps : sortByKey (fun n => n) p1 = sortByKey (fun n => n) p2 :=
    sortByKey_eq_of_perm _ p1 p2 hp (fun a _ b _ h => h)
  have hts : sortByKey hash t1 = sortByKey hash t2 :=
    sortByKey_eq_of_perm hash t1 t2 ht hinj
  have hrs : sortByKey (fun n => n) r1 = sortByKey (fun n => n) r2 :=
    sortByKey_eq_of_perm _ r1 r2 hr (fun a _ b _ h => h)
  unfold Build
  rw [hps, hts, hrs]

theorem build_canonical_witness :
    Build (fun l => l.headD 0) (fun inner => inner.parentIDs)
        (fun _ => true) 9 2 1 [3, 1] [[1], [2]] [5, 4] =
      Build (fun l => l.headD 0) (fun inner => inner.parentIDs)
        (fun _ => true) 9 2 1 [1, 3] [[2], [1]] [4, 5] :=
  build_canonical (fun l => l.headD 0) (fun inner => inner.parentIDs)
    (fun _ => true) 9 2 1 [3, 1] [1, 3] [[1], [2]] [[2], [1]] [5, 4] [4, 5]
    (List.Perm.swap 1 3 []) (List.Perm.swap [2] [1] [])
    (List.Perm.swap 4 5 []) (by decide)

/-!
AVM utxo pagination (VM.GetUTXOs / VM.getPaginatedUTXOs, src/unnamed/part_001
lines 506-575).  Addresses and utxo ids are naturals ordered as their bytes
are; the funds index is a function from address to the ascending list of
utxo ids it references.  state.Funds is modelled from the spec: the
persisted F index maps addr || utxo_id keys to empty values, so reading at
most n entries after a cursor returns the first n ids greater than the
cursor.  ids.ShortEmpty and ids.Empty are 0, below every real address and
utxo id. -/

/-- Modelled from the spec: state.Funds(addr, start, limit) returns the
first limit utxo ids of addr strictly greater than start, in ascending
order (persisted layout, F index). -/
def fundsFetch (st : Nat → List Nat) (a start size : Nat) : List Nat :=
  ((st a).filter fun u => start < u).take size

/-- The mutable locals of getPaginatedUTXOs. -/
structure PageState where
  out : List Nat
  seen : Finset Nat
  lastAddr : Nat
  lastUTXO : Nat
  limitRem : Nat
deriving DecidableEq

/-- The inner loop over the utxo ids fetched for one address: record every
searched id in the cursor, skip ids already in seen, append new ids and
stop (second component true) when the limit is exhausted. -/
def scanIDs (a : Nat) : List Nat → PageState → PageState × Bool
  | [], s => (s, false)
  | u :: rest, s =>
      if u ∈ s.seen then scanIDs a rest ⟨s.out, s.seen, a, u, s.limitRem⟩
      else if s.limitRem - 1 = 0 then
        (⟨s.out ++ [u], insert u s.seen, a, u, s.limitRem - 1⟩, true)
      else scanIDs a rest ⟨s.out ++ [u], insert u s.seen, a, u, s.limitRem - 1⟩

/-- The outer loop over the sorted address list: skip addresses below the
start address, resume at the start utxo cursor on the start address, fetch
at most searchSize ids per address and stop as soon as the inner loop
exhausts the limit. -/
def scanAddrs (st : Nat → List Nat) (sa su sz : Nat) :
    List Nat → PageState → PageState
  | [], s => s
  | a :: rest, s =>
      if a < sa then scanAddrs st sa su sz rest s
      else
        if (scanIDs a (fundsFetch st a (if a = sa then su else 0) sz) s).2 then
          (scanIDs a (fundsFetch st a (if a = sa then su else 0) sz) s).1
        else
          scanAddrs st sa su sz rest
            (scanIDs a (fundsFetch st a (if a = sa then su else 0) sz) s).1

/-- VM.getPaginatedUTXOs for an already clamped limit.  The Go code sorts
the unique address list of the ids.ShortSet argument; the caller's set is
an address list here (unique in the theorems) sorted the same way. -/
def getPaginatedUTXOs (st : Nat → List Nat) (addrs : List Nat)
    (sa su limit : Nat) : List Nat × Nat × Nat :=
  let s := scanAddrs st sa su limit (sortByKey (fun n => n) addrs)
    ⟨[], ∅, 0, 0, limit⟩
  (s.out, s.lastAddr, s.lastUTXO)

/-- VM.GetUTXOs in paginated mode: clamp the limit (at most 1024, and 1024
when the caller passes a non-positive limit) and fetch one page. -/
def GetUTXOsPaginated (st : Nat → List Nat) (addrs : List Nat)
    (sa su limit : Nat) : List Nat × Nat × Nat :=
  getPaginatedUTXOs st addrs sa su
    (if limit = 0 ∨ 1024 < limit then 1024 else limit)

/-- The iteration of the pagination claim: call GetUTXOs, feed the returned
cursor into the next call, stop when a page comes back empty. -/
def iteratePages (st : Nat → List Nat) (addrs : List Nat) (limit : Nat) :
    Nat → Nat × Nat → List Nat
  | 0, _ => []
  | Nat.succ fuel, cur =>
      let r := GetUTXOsPaginated st addrs cur.1 cur.2 limit
      if r.1 = [] then [] else r.1 ++ iteratePages st addrs limit fuel r.2

/-- Strict lexicographic order on (address, utxo id) cursors. -/
def cursorLt (cur p : Nat × Nat) : Prop :=
  cur.1 < p.1 ∨ (cur.1 = p.1 ∧ cur.2 < p.2)

instance (cur p : Nat × Nat) : Decidable (cursorLt cur p) := by
  unfold cursorLt
  infer_instance

/-- The matching pairs (address, utxo id) strictly beyond a cursor. -/
def region (st : Nat → List Nat) (addrs : List Nat) (cur : Nat × Nat) :
    Finset (Nat × Nat) :=
  addrs.toFinset.biUnion fun a =>
    (((st a).filter fun u => decide (cursorLt cur (a, u))).toFinset.image
      fun u => (a, u))

theorem mem_region (st : Nat → List Nat) (addrs : List Nat) (cur : Nat × Nat)
    (p : Nat × Nat) :
    p ∈ region st addrs cur ↔ p.1 ∈ addrs ∧ p.2 ∈ st p.1 ∧ cursorLt cur p := by
  unfold region
  rw [Finset.mem_biUnion]
  constructor
  · rintro ⟨a, ha, hp⟩
    rw [Finset.mem_image] at hp
    obtain ⟨u, hu, he⟩ := hp
    rw [List.mem_toFinset, List.mem_filter] at hu
    subst he
    exact ⟨List.mem_toFinset.mp ha, hu.1, of_decide_eq_true hu.2⟩
  · rintro ⟨ha, hu, hc⟩
    refine ⟨p.1, List.mem_toFinset.mpr ha, ?_⟩
    rw [Finset.mem_image]
    refine ⟨p.2, ?_, rfl⟩
    rw [List.mem_toFinset, List.mem_filter]
    exact ⟨hu, decide_eq_true hc⟩

theorem cursorLt_trans (a b c : Nat × Nat) (h1 : cursorLt a b)
    (h2 : cursorLt b c) : cursorLt a c := by
  unfold cursorLt at *
  omega

theorem cursorLt_irrefl (a : Nat × Nat) : ¬ cursorLt a a := by
  unfold cursorLt
  omega

theorem seen_out_step (s : PageState) (u : Nat)
    (hseen : s.seen = s.out.toFinset) (hnd : s.out.Nodup)
    (hu : u ∉ s.seen) :
    insert u s.seen = (s.out ++ [u]).toFinset ∧ (s.out ++ [u]).Nodup := by
  constructor
  · rw [List.toFinset_append, hseen]
    ext x
    simp [Or.comm]
  · rw [List.nodup_append]
    refine ⟨hnd, List.nodup_singleton u, ?_⟩
    intro x hx hx1
    rw [List.mem_singleton] at hx1
    subst hx1
    rw [hseen] at hu
    exact hu (List.mem_toFinset.mpr hx)

theorem scanIDs_seen_out (a : Nat) (F : List Nat) :
    ∀ s : PageState, s.seen = s.out.toFinset → s.out.Nodup →
      (scanIDs a F s).1.seen = (scanIDs a F s).1.out.toFinset ∧
        (scanIDs a F s).1.out.Nodup := by
  induction F with
  | nil =>
      intro s hseen hnd
      exact ⟨hseen, hnd⟩
  | cons u rest ih =>
      intro s hseen hnd
      simp only [scanIDs]
      by_cases hmem : u ∈ s.seen
      · rw [if_pos hmem]
        exact ih _ hseen hnd
      · rw [if_neg hmem]
        obtain ⟨hseen2, hnd2⟩ := seen_out_step s u hseen hnd hmem
        by_cases hz : s.limitRem - 1 = 0
        · rw [if_pos hz]
          exact ⟨hseen2, hnd2⟩
        · rw [if_neg hz]
          exact ih _ hseen2 hnd2

theorem scanIDs_out_ext (a : Nat) (F : List Nat) :
    ∀ s : PageState, ∃ ext, (scanIDs a F s).1.out = s.out ++ ext := by
  induction F with
  | nil =>
      intro s
      exact ⟨[], (List.append_nil s.out).symm⟩
  | cons u rest ih =>
      intro s
      simp only [scanIDs]
      by_cases hmem : u ∈ s.seen
      · rw [if_pos hmem]
        exact ih _
      · rw [if_neg hmem]
        by_cases hz : s.limitRem - 1 = 0
        · rw [if_pos hz]
          exact ⟨[u], rfl⟩
        · rw [if_neg hz]
          obtain ⟨ext, hext⟩ := ih ⟨s.out ++ [u], insert u s.seen, a, u, s.limitRem - 1⟩
          exact ⟨u :: ext, by simpa using hext⟩

theorem scanIDs_acct (a : Nat) (F : List Nat) :
    ∀ s : PageState, 0 < s.limitRem →
      (scanIDs a F s).1.limitRem + (scanIDs a F s).1.out.length =
        s.limitRem + s.out.length := by
  induction F with
  | nil =>
      intro s _
      rfl
  | cons u rest ih =>
      intro s hpos
      simp only [scanIDs]
      by_cases hmem : u ∈ s.seen
      · rw [if_pos hmem]
        exact ih _ hpos
      · rw [if_neg hmem]
        by_cases hz : s.limitRem - 1 = 0
        · rw [if_pos hz]
          simp only [List.length_append, List.length_singleton]
          omega
        · rw [if_neg hz]
          have := ih ⟨s.out ++ [u], insert u s.seen, a, u, s.limitRem - 1⟩
            (Nat.pos_of_ne_zero hz)
          simp only [List.length_append, List.length_singleton] at this
          omega

theorem scanIDs_pos (a : Nat) (F : List Nat) :
    ∀ s : PageState, 0 < s.limitRem → (scanIDs a F s).2 = false →
      0 < (scanIDs a F s).1.limitRem := by
  induction F with
  | nil =>
      intro s hpos _
      exact hpos
  | cons u rest ih =>
      intro s hpos hstop
      simp only [scanIDs] at hstop ⊢
      by_cases hmem : u ∈ s.seen
      · rw [if_pos hmem] at hstop ⊢
        exact ih _ hpos hstop
      · rw [if_neg hmem] at hstop ⊢
        by_cases hz : s.limitRem - 1 = 0
        · rw [if_pos hz] at hstop
          cases hstop
        · rw [if_neg hz] at hstop ⊢
          exact ih _ (Nat.pos_of_ne_zero hz) hstop

theorem scanIDs_stop_zero (a : Nat) (F : List Nat) :
    ∀ s : PageState, (scanIDs a F s).2 = true →
      (scanIDs a F s).1.limitRem = 0 := by
  induction F with
  | nil =>
      intro s hstop
      cases hstop
  | cons u rest ih =>
      intro s hstop
      simp only [scanIDs] at hstop ⊢
      by_cases hmem : u ∈ s.seen
      · rw [if_pos hmem] at hstop ⊢
        exact ih _ hstop
      · rw [if_neg hmem] at hstop ⊢
        by_cases hz : s.limitRem - 1 = 0
        · rw [if_pos hz] at hstop ⊢
          exact hz
        · rw [if_neg hz] at hstop ⊢
          exact ih _ hstop

theorem scanIDs_cover (a : Nat) (F : List Nat) :
    ∀ s : PageState, s.seen = s.out.toFinset → s.out.Nodup →
      (scanIDs a F s).2 = false → ∀ u ∈ F, u ∈ (scanIDs a F s).1.out := by
  induction F with
  | nil =>
      intro s _ _ _ u hu
      cases hu
  | cons v rest ih =>
      intro s hseen hnd hstop u hu
      simp only [scanIDs] at hstop ⊢
      by_cases hmem : v ∈ s.seen
      · rw [if_pos hmem] at hstop ⊢
        rcases List.mem_cons.mp hu with he | hm
        · have hout : u ∈ s.out := by
            rw [he]
            rw [hseen] at hmem
            exact List.mem_toFinset.mp hmem
          obtain ⟨ext, hext⟩ :=
            scanIDs_out_ext a rest ⟨s.out, s.seen, a, v, s.limitRem⟩
          rw [hext]
          exact List.mem_append_left _ hout
        · exact ih ⟨s.out, s.seen, a, v, s.limitRem⟩ hseen hnd hstop u hm
      · rw [if_neg hmem] at hstop ⊢
        by_cases hz : s.limitRem - 1 = 0
        · rw [if_pos hz] at hstop
          cases hstop
        · rw [if_neg hz] at hstop ⊢
          obtain ⟨hseen2, hnd2⟩ := seen_out_step s v hseen hnd hmem
          rcases List.mem_cons.mp hu with he | hm
          · obtain ⟨ext, hext⟩ := scanIDs_out_ext a rest
              ⟨s.out ++ [v], insert v s.seen, a, v, s.limitRem - 1⟩
            rw [hext, he]
            exact List.mem_append_left _
              (List.mem_append_right _ (List.mem_singleton.mpr rfl))
          · exact ih ⟨s.out ++ [v], insert v s.seen, a, v, s.limitRem - 1⟩
              hseen2 hnd2 hstop u hm

theorem scanIDs_cover_stop (a : Nat) (F : List Nat) :
    ∀ s : PageState, s.seen = s.out.toFinset → s.out.Nodup →
      (scanIDs a F s).2 = true →
      (scanIDs a F s).1.lastAddr = a ∧
        ∃ F1 F2, F = F1 ++ (scanIDs a F s).1.lastUTXO :: F2 ∧
          (∀ u ∈ F1, u ∈ (scanIDs a F s).1.out) ∧
          (scanIDs a F s).1.lastUTXO ∈ (scanIDs a F s).1.out := by
  induction F with
  | nil =>
      intro s _ _ hstop
      cases hstop
  | cons v rest ih =>
      intro s hseen hnd hstop
      simp only [scanIDs] at hstop ⊢
      by_cases hmem : v ∈ s.seen
      · rw [if_pos hmem] at hstop ⊢
        obtain ⟨hla, F1, F2, hsplit, hcov, hlu⟩ :=
          ih ⟨s.out, s.seen, a, v, s.limitRem⟩ hseen hnd hstop
        refine ⟨hla, v :: F1, F2, ?_, ?_, hlu⟩
        · conv_lhs => rw [hsplit]
          simp [List.cons_append]
        intro u hu
        rcases List.mem_cons.mp hu with he | hm
        · obtain ⟨ext, hext⟩ :=
            scanIDs_out_ext a rest ⟨s.out, s.seen, a, v, s.limitRem⟩
          rw [hext, he]
          refine List.mem_append_left _ ?_
          rw [hseen] at hmem
          exact List.mem_toFinset.mp hmem
        · exact hcov u hm
      · rw [if_neg hmem] at hstop ⊢
        by_cases hz : s.limitRem - 1 = 0
        · rw [if_pos hz] at hstop ⊢
          refine ⟨rfl, [], rest, rfl, ?_, ?_⟩
          · intro u hu
            cases hu
          · exact List.mem_append_right _ (List.mem_singleton.mpr rfl)
        · rw [if_neg hz] at hstop ⊢
          obtain ⟨hseen2, hnd2⟩ := seen_out_step s v hseen hnd hmem
          obtain ⟨hla, F1, F2, hsplit, hcov, hlu⟩ :=
            ih ⟨s.out ++ [v], insert v s.seen, a, v, s.limitRem - 1⟩
              hseen2 hnd2 hstop
          refine ⟨hla, v :: F1, F2, ?_, ?_, hlu⟩
          · conv_lhs => rw [hsplit]
            simp [List.cons_append]
          intro u hu
          rcases List.mem_cons.mp hu with he | hm
          · obtain ⟨ext, hext⟩ := scanIDs_out_ext a rest
              ⟨s.out ++ [v], insert v s.seen, a, v, s.limitRem - 1⟩
            rw [hext, he]
            exact List.mem_append_left _
              (List.mem_append_right _ (List.mem_singleton.mpr rfl))
          · exact hcov u hm

theorem scanIDs_length_bound (a : Nat) (F : List Nat) :
    ∀ s : PageState, F.Nodup → 0 < s.limitRem →
      (scanIDs a F s).2 = false →
      F.length + (scanIDs a F s).1.limitRem ≤
        s.limitRem + (F.filter fun u => decide (u ∈ s.seen)).length := by
  induction F with
  | nil =>
      intro s _ hpos _
      simp only [scanIDs, List.length_nil, List.filter_nil]
      omega
  | cons v rest ih =>
      intro s hnd hpos hstop
      have hndr : rest.Nodup := hnd.of_cons
      have hvr : v ∉ rest := (List.nodup_cons.mp hnd).1
      simp only [scanIDs] at hstop ⊢
      by_cases hmem : v ∈ s.seen
      · rw [if_pos hmem] at hstop ⊢
        have hbound := ih ⟨s.out, s.seen, a, v, s.limitRem⟩ hndr hpos hstop
        dsimp only at hbound
        rw [List.filter_cons, if_pos (decide_eq_true hmem)]
        simp only [List.length_cons]
        omega
      · rw [if_neg hmem] at hstop ⊢
        by_cases hz : s.limitRem - 1 = 0
        · rw [if_pos hz] at hstop
          cases hstop
        · rw [if_neg hz] at hstop ⊢
          have hbound := ih ⟨s.out ++ [v], insert v s.seen, a, v, s.limitRem - 1⟩
            hndr (Nat.pos_of_ne_zero hz) hstop
          dsimp only at hbound
          have hfeq : (rest.filter fun u => decide (u ∈ insert v s.seen)) =
              rest.filter fun u => decide (u ∈ s.seen) := by
            apply List.filter_congr
            intro x hx
            have hxv : x ≠ v := fun h => hvr (h ▸ hx)
            simp [Finset.mem_insert, hxv]
          rw [hfeq] at hbound
          rw [List.filter_cons,
            if_neg (fun h => hmem (of_decide_eq_true h))]
          simp only [List.length_cons]
          omega

theorem scanIDs_last (a : Nat) (F : List Nat) :
    ∀ s : PageState, (scanIDs a F s).2 = false →
      ((scanIDs a F s).1.lastAddr = a ∧ (scanIDs a F s).1.lastUTXO ∈ F) ∨
        (scanIDs a F s).1 = s := by
  induction F with
  | nil =>
      intro s _
      exact Or.inr rfl
  | cons v rest ih =>
      intro s hstop
      simp only [scanIDs] at hstop ⊢
      by_cases hmem : v ∈ s.seen
      · rw [if_pos hmem] at hstop ⊢
        rcases ih ⟨s.out, s.seen, a, v, s.limitRem⟩ hstop with ⟨hla, hlu⟩ | heq
        · exact Or.inl ⟨hla, List.mem_cons_of_mem _ hlu⟩
        · rw [heq]
          exact Or.inl ⟨rfl, List.mem_cons_self _ _⟩
      · rw [if_neg hmem] at hstop ⊢
        by_cases hz : s.limitRem - 1 = 0
        · rw [if_pos hz] at hstop
          cases hstop
        · rw [if_neg hz] at hstop ⊢
          rcases ih ⟨s.out ++ [v], insert v s.seen, a, v, s.limitRem - 1⟩ hstop with
            ⟨hla, hlu⟩ | heq
          · exact Or.inl ⟨hla, List.mem_cons_of_mem _ hlu⟩
          · rw [heq]
            exact Or.inl ⟨rfl, List.mem_cons_self _ _⟩

theorem filter_mem_card_le (F : List Nat) (S : Finset Nat) (h : F.Nodup) :
    (F.filter fun u => decide (u ∈ S)).length ≤ S.card := by
  have hnd : (F.filter fun u => decide (u ∈ S)).Nodup := h.filter _
  have hsub : (F.filter fun u => decide (u ∈ S)).toFinset ⊆ S := by
    intro x hx
    rw [List.mem_toFinset] at hx
    exact of_decide_eq_true (List.mem_filter.mp hx).2
  calc (F.filter fun u => decide (u ∈ S)).length
      = (F.filter fun u => decide (u ∈ S)).toFinset.card :=
        (List.toFinset_card_of_nodup hnd).symm
    _ ≤ S.card := Finset.card_le_card hsub

/-- The conclusions of one scanAddrs run from state s: queue bookkeeping,
coverage of the region slice up to the final cursor, and validity of the
final cursor. -/
def ScanOut (st : Nat → List Nat) (sa su sz : Nat) (al : List Nat)
    (s s' : PageState) : Prop :=
  (s'.seen = s'.out.toFinset) ∧ s'.out.Nodup ∧
    (∃ ext, s'.out = s.out ++ ext) ∧
    (s'.limitRem + s'.out.length = sz) ∧
    (∀ a ∈ al, ∀ u ∈ st a, cursorLt (sa, su) (a, u) →
      (s'.limitRem = 0 → ¬ cursorLt (s'.lastAddr, s'.lastUTXO) (a, u)) →
      u ∈ s'.out) ∧
    ((s'.lastAddr = s.lastAddr ∧ s'.lastUTXO = s.lastUTXO ∧
        s'.out = s.out) ∨
      (s'.lastAddr ∈ al ∧ s'.lastUTXO ∈ st s'.lastAddr ∧
        cursorLt (sa, su) (s'.lastAddr, s'.lastUTXO)))

theorem scanAddrs_spec (st : Nat → List Nat) (sa su sz : Nat)
    (hsorted : ∀ x, List.Sorted (· < ·) (st x))
    (hpos : ∀ x u, u ∈ st x → 0 < u) :
    ∀ (al : List Nat) (s : PageState), List.Sorted (· < ·) al →
      s.seen = s.out.toFinset → s.out.Nodup → 0 < s.limitRem →
      s.limitRem + s.out.length = sz →
      ScanOut st sa su sz al s (scanAddrs st sa su sz al s) := by
  intro al
  induction al with
  | nil =>
      intro s _ hseen hnd hpos0 hacct
      exact ⟨hseen, hnd, ⟨[], (List.append_nil s.out).symm⟩, hacct,
        fun a ha => absurd ha (List.not_mem_nil _),
        Or.inl ⟨rfl, rfl, rfl⟩⟩
  | cons a rest ih =>
      intro s hsort hseen hnd hpos0 hacct
      have hsort' : List.Sorted (· < ·) rest := hsort.of_cons
      have hbelow : ∀ b ∈ rest, a < b := List.rel_of_sorted_cons hsort
      simp only [scanAddrs]
      by_cases hlt : a < sa
      · rw [if_pos hlt]
        obtain ⟨c1, c2, c3, c4, c5, c6⟩ := ih s hsort' hseen hnd hpos0 hacct
        refine ⟨c1, c2, c3, c4, ?_, ?_⟩
        · intro a0 ha0 u hu hcur hfin
          rcases List.mem_cons.mp ha0 with he | hm
          · exfalso
            subst he
            unfold cursorLt at hcur
            simp only at hcur
            omega
          · exact c5 a0 hm u hu hcur hfin
        · rcases c6 with hl | ⟨e1, e2, e3⟩
          · exact Or.inl hl
          · exact Or.inr ⟨List.mem_cons_of_mem _ e1, e2, e3⟩
      · rw [if_neg hlt]
        have hfl_sorted : List.Sorted (· < ·)
            ((st a).filter fun u => decide ((if a = sa then su else 0) < u)) :=
          (hsorted a).filter _
        have hF_sub : fundsFetch st a (if a = sa then su else 0) sz ⊆
            (st a).filter fun u => decide ((if a = sa then su else 0) < u) := by
          unfold fundsFetch
          exact List.take_subset _ _
        have hF_sorted : List.Sorted (· < ·)
            (fundsFetch st a (if a = sa then su else 0) sz) := by
          unfold fundsFetch
          exact List.Pairwise.sublist (List.take_sublist _ _) hfl_sorted
        have hF_nd : (fundsFetch st a (if a = sa then su else 0) sz).Nodup :=
          hF_sorted.imp (fun h => Nat.ne_of_lt h)
        have hmemfilter : ∀ u ∈ st a, cursorLt (sa, su) (a, u) →
            u ∈ (st a).filter fun u => decide ((if a = sa then su else 0) < u) := by
          intro u hu hcur
          rw [List.mem_filter]
          refine ⟨hu, decide_eq_true ?_⟩
          unfold cursorLt at hcur
          simp only at hcur
          by_cases hasa : a = sa
          · rw [if_pos hasa]
            omega
          · rw [if_neg hasa]
            exact hpos a u hu
        have hfilter_cur : ∀ u ∈ (st a).filter
            fun u => decide ((if a = sa then su else 0) < u),
            cursorLt (sa, su) (a, u) := by
          intro u hu
          rw [List.mem_filter] at hu
          have hcond := of_decide_eq_true hu.2
          unfold cursorLt
          simp only
          by_cases hasa : a = sa
          · rw [if_pos hasa] at hcond
            omega
          · rw [if_neg hasa] at hcond
            omega
        by_cases hst : (scanIDs a (fundsFetch st a (if a = sa then su else 0) sz) s).2 = true
        · rw [if_pos hst]
          obtain ⟨hseen', hnd'⟩ := scanIDs_seen_out a _ s hseen hnd
          obtain ⟨ext, hext⟩ := scanIDs_out_ext a
            (fundsFetch st a (if a = sa then su else 0) sz) s
          have hacct' := scanIDs_acct a
            (fundsFetch st a (if a = sa then su else 0) sz) s hpos0
          have hzero := scanIDs_stop_zero a
            (fundsFetch st a (if a = sa then su else 0) sz) s hst
          obtain ⟨hla, F1, F2, hsplit, hcov, hluout⟩ := scanIDs_cover_stop a
            (fundsFetch st a (if a = sa then su else 0) sz) s hseen hnd hst
          have hluF : (scanIDs a (fundsFetch st a (if a = sa then su else 0) sz)
              s).1.lastUTXO ∈ fundsFetch st a (if a = sa then su else 0) sz := by
            have hmem2 := List.mem_append_right F1
              (List.mem_cons_self
                (scanIDs a (fundsFetch st a (if a = sa then su else 0) sz)
                  s).1.lastUTXO F2)
            rw [← hsplit] at hmem2
            exact hmem2
          have hlufl := hF_sub hluF
          refine ⟨hseen', hnd', ⟨ext, hext⟩, by omega, ?_, ?_⟩
          · intro a0 ha0 u hu hcur hfin
            have hnotlt := hfin hzero
            rcases List.mem_cons.mp ha0 with he | hm
            · subst he
              have hule : u ≤ (scanIDs a0
                  (fundsFetch st a0 (if a0 = sa then su else 0) sz) s).1.lastUTXO := by
                by_contra hgt
                push_neg at hgt
                exact hnotlt (Or.inr ⟨hla, hgt⟩)
              have hufl := hmemfilter u hu hcur
              have hdecomp := List.take_append_drop sz
                ((st a0).filter fun u => decide ((if a0 = sa then su else 0) < u))
              have hufl2 : u ∈ fundsFetch st a0 (if a0 = sa then su else 0) sz ++
                  ((st a0).filter fun u =>
                    decide ((if a0 = sa then su else 0) < u)).drop sz := by
                unfold fundsFetch
                rw [hdecomp]
                exact hufl
              have hpair := List.pairwise_append.mp
                (show List.Pairwise (· < ·)
                  (fundsFetch st a0 (if a0 = sa then su else 0) sz ++
                    ((st a0).filter fun u =>
                      decide ((if a0 = sa then su else 0) < u)).drop sz) by
                  unfold fundsFetch
                  rw [hdecomp]
                  exact hfl_sorted)
              have huF : u ∈ fundsFetch st a0 (if a0 = sa then su else 0) sz := by
                rcases List.mem_append.mp hufl2 with h | h
                · exact h
                · exfalso
                  have := hpair.2.2 _ hluF u h
                  omega
              rw [hsplit] at huF
              rcases List.mem_append.mp huF with h | h
              · exact hcov u h
              · rcases List.mem_cons.mp h with he2 | h2
                · rw [he2]
                  exact hluout
                · exfalso
                  have hpairF := List.pairwise_append.mp (hsplit ▸ hF_sorted)
                  have := (List.sorted_cons.mp hpairF.2.1).1 u h2
                  omega
            · exfalso
              apply hnotlt
              rw [hla]
              exact Or.inl (hbelow a0 hm)
          · right
            rw [hla]
            exact ⟨List.mem_cons_self _ _, (List.mem_filter.mp hlufl).1,
              hfilter_cur _ hlufl⟩
        · have hst2 : (scanIDs a (fundsFetch st a (if a = sa then su else 0) sz)
              s).2 = false := by
            revert hst
            cases (scanIDs a (fundsFetch st a (if a = sa then su else 0) sz) s).2 <;>
              simp
          rw [if_neg hst]
          obtain ⟨hseen', hnd'⟩ := scanIDs_seen_out a _ s hseen hnd
          obtain ⟨ext, hext⟩ := scanIDs_out_ext a
            (fundsFetch st a (if a = sa then su else 0) sz) s
          have hacct0 := scanIDs_acct a
            (fundsFetch st a (if a = sa then su else 0) sz) s hpos0
          have hpos' := scanIDs_pos a
            (fundsFetch st a (if a = sa then su else 0) sz) s hpos0 hst2
          obtain ⟨c1, c2, c3, c4, c5, c6⟩ := ih
            (scanIDs a (fundsFetch st a (if a = sa then su else 0) sz) s).1
            hsort' hseen' hnd' hpos' (by omega)
          refine ⟨c1, c2, ?_, c4, ?_, ?_⟩
          · obtain ⟨ext2, hext2⟩ := c3
            exact ⟨ext ++ ext2, by rw [hext2, hext, List.append_assoc]⟩
          · intro a0 ha0 u hu hcur hfin
            rcases List.mem_cons.mp ha0 with he | hm
            · subst he
              have hufl := hmemfilter u hu hcur
              have hlenF : (fundsFetch st a0 (if a0 = sa then su else 0) sz).length
                  < sz := by
                have hb := scanIDs_length_bound a0
                  (fundsFetch st a0 (if a0 = sa then su else 0) sz) s hF_nd hpos0 hst2
                have hdup := filter_mem_card_le
                  (fundsFetch st a0 (if a0 = sa then su else 0) sz) s.seen hF_nd
                have hcard : s.seen.card = s.out.length := by
                  rw [hseen]
                  exact List.toFinset_card_of_nodup hnd
                omega
              have hfllen : ((st a0).filter fun u =>
                  decide ((if a0 = sa then su else 0) < u)).length < sz := by
                have hlen := List.length_take sz
                  ((st a0).filter fun u => decide ((if a0 = sa then su else 0) < u))
                unfold fundsFetch at hlenF
                rcases Nat.lt_or_ge ((st a0).filter fun u =>
                    decide ((if a0 = sa then su else 0) < u)).length sz with h | h
                · exact h
                · exfalso
                  rw [hlen] at hlenF
                  omega
              have hFfl : fundsFetch st a0 (if a0 = sa then su else 0) sz =
                  (st a0).filter fun u => decide ((if a0 = sa then su else 0) < u) := by
                unfold fundsFetch
                exact List.take_of_length_le (Nat.le_of_lt hfllen)
              have huF : u ∈ fundsFetch st a0 (if a0 = sa then su else 0) sz := by
                rw [hFfl]
                exact hufl
              have hout := scanIDs_cover a0
                (fundsFetch st a0 (if a0 = sa then su else 0) sz) s hseen hnd hst2 u huF
              obtain ⟨ext2, hext2⟩ := c3
              rw [hext2]
              exact List.mem_append_left _ hout
            · exact c5 a0 hm u hu hcur hfin
          · rcases c6 with ⟨e1, e2, e3⟩ | ⟨e1, e2, e3⟩
            · rcases scanIDs_last a
                (fundsFetch st a (if a = sa then su else 0) sz) s hst2 with
                ⟨l1, l2⟩ | leq
              · right
                rw [e1, e2, l1]
                have hlufl := hF_sub l2
                exact ⟨List.mem_cons_self _ _, (List.mem_filter.mp hlufl).1,
                  hfilter_cur _ hlufl⟩
              · left
                rw [e1, e2, e3, leq]
                exact ⟨rfl, rfl, rfl⟩
            · exact Or.inr ⟨List.mem_cons_of_mem _ e1, e2, e3⟩

theorem page_spec (st : Nat → List Nat) (addrs : List Nat) (sa su L : Nat)
    (hsorted : ∀ x, List.Sorted (· < ·) (st x))
    (hpos : ∀ x u, u ∈ st x → 0 < u)
    (haddr : addrs.Nodup) (hL : 0 < L) :
    (getPaginatedUTXOs st addrs sa su L).1.Nodup ∧
      (∀ p ∈ region st addrs (sa, su),
        ¬ cursorLt ((getPaginatedUTXOs st addrs sa su L).2.1,
            (getPaginatedUTXOs st addrs sa su L).2.2) p →
        p.2 ∈ (getPaginatedUTXOs st addrs sa su L).1) ∧
      ((getPaginatedUTXOs st addrs sa su L).1 = [] →
        region st addrs (sa, su) = ∅) ∧
      ((getPaginatedUTXOs st addrs sa su L).1 ≠ [] →
        ((getPaginatedUTXOs st addrs sa su L).2.1,
          (getPaginatedUTXOs st addrs sa su L).2.2) ∈
          region st addrs (sa, su)) := by
  have hperm := perm_sortByKey (fun n => n) addrs
  have halnd : (sortByKey (fun n => n) addrs).Nodup :=
    (List.Perm.nodup_iff hperm).mpr haddr
  have hle : List.Sorted (fun x y => x ≤ y) (sortByKey (fun n => n) addrs) :=
    sorted_sortByKey (fun n => n) addrs
  have hstrict : List.Sorted (· < ·) (sortByKey (fun n => n) addrs) := by
    have hand := List.Pairwise.and hle halnd
    exact hand.imp fun h => Nat.lt_of_le_of_ne h.1 h.2
  obtain ⟨c1, c2, c3, c4, c5, c6⟩ := scanAddrs_spec st sa su L hsorted hpos
    (sortByKey (fun n => n) addrs) ⟨[], ∅, 0, 0, L⟩ hstrict (by simp) List.nodup_nil
    hL (by simp)
  refine ⟨c2, ?_, ?_, ?_⟩
  · intro p hp hnot
    rw [mem_region] at hp
    exact c5 p.1 (hperm.mem_iff.mpr hp.1) p.2 hp.2.1 hp.2.2 fun _ => hnot
  · intro hout
    rw [Finset.eq_empty_iff_forall_not_mem]
    intro p hp
    rw [mem_region] at hp
    have hlim : (scanAddrs st sa su L (sortByKey (fun n => n) addrs)
        ⟨[], ∅, 0, 0, L⟩).limitRem ≠ 0 := by
      have hout2 : (scanAddrs st sa su L (sortByKey (fun n => n) addrs)
          ⟨[], ∅, 0, 0, L⟩).out = [] := hout
      rw [hout2] at c4
      simp at c4
      omega
    have := c5 p.1 (hperm.mem_iff.mpr hp.1) p.2 hp.2.1 hp.2.2
      fun h0 => absurd h0 hlim
    have hmem : p.2 ∈ (getPaginatedUTXOs st addrs sa su L).1 := this
    rw [hout] at hmem
    cases hmem
  · intro hout
    rcases c6 with ⟨_, _, e3⟩ | ⟨e1, e2, e3⟩
    · exact absurd e3 hout
    · rw [mem_region]
      exact ⟨hperm.mem_iff.mp e1, e2, e3⟩

theorem iteratePages_complete (st : Nat → List Nat) (addrs : List Nat)
    (limit : Nat) (hsorted : ∀ x, List.Sorted (· < ·) (st x))
    (hpos : ∀ x u, u ∈ st x → 0 < u) (haddr : addrs.Nodup) :
    ∀ (fuel : Nat) (cur : Nat × Nat), (region st addrs cur).card < fuel →
      ∀ p ∈ region st addrs cur, p.2 ∈ iteratePages st addrs limit fuel cur := by
  intro fuel
  induction fuel with
  | zero =>
      intro cur hcard p hp
      omega
  | succ n ihn =>
      intro cur hcard p hp
      have hL : 0 < (if limit = 0 ∨ 1024 < limit then 1024 else limit) := by
        by_cases h : limit = 0 ∨ 1024 < limit
        · rw [if_pos h]
          omega
        · rw [if_neg h]
          omega
      obtain ⟨c1, c2, c3, c4⟩ := page_spec st addrs cur.1 cur.2
        (if limit = 0 ∨ 1024 < limit then 1024 else limit) hsorted hpos haddr hL
      simp only [iteratePages]
      by_cases hempty : (GetUTXOsPaginated st addrs cur.1 cur.2 limit).1 = []
      · exfalso
        have hreg := c3 hempty
        have hp2 : p ∈ region st addrs (cur.1, cur.2) := hp
        rw [hreg] at hp2
        cases hp2
      · rw [if_neg hempty]
        by_cases hc : cursorLt (GetUTXOsPaginated st addrs cur.1 cur.2 limit).2 p
        · have hp0 := (mem_region st addrs cur p).mp hp
          have hpmem : p ∈ region st addrs
              (GetUTXOsPaginated st addrs cur.1 cur.2 limit).2 :=
            (mem_region st addrs _ p).mpr ⟨hp0.1, hp0.2.1, hc⟩
          have hmem4 := c4 hempty
          have hcc : cursorLt cur (GetUTXOsPaginated st addrs cur.1 cur.2 limit).2 :=
            ((mem_region st addrs _ _).mp hmem4).2.2
          have hsub : region st addrs (GetUTXOsPaginated st addrs cur.1 cur.2 limit).2
              ⊆ region st addrs cur := by
            intro q hq
            have hq0 := (mem_region st addrs _ q).mp hq
            exact (mem_region st addrs cur q).mpr
              ⟨hq0.1, hq0.2.1, cursorLt_trans _ _ _ hcc hq0.2.2⟩
          have hss : region st addrs (GetUTXOsPaginated st addrs cur.1 cur.2 limit).2
              ⊂ region st addrs cur := by
            rw [Finset.ssubset_def]
            refine ⟨hsub, ?_⟩
            intro hsup
            have := hsup hmem4
            have hirr := ((mem_region st addrs _ _).mp this).2.2
            exact cursorLt_irrefl _ hirr
          have hlt := Finset.card_lt_card hss
          exact List.mem_append_right _
            (ihn (GetUTXOsPaginated st addrs cur.1 cur.2 limit).2 (by omega) p hpmem)
        · exact List.mem_append_left _ (c2 p hp hc)

/-- Funds index for the C6 counterexample: addresses 1 and 2 both reference
utxo 5. -/
def stC : Nat → List Nat :=
  fun a => if a = 1 then [5] else if a = 2 then [5] else []

/-- C6 counterexample: utxo 5 is referenced by both queried addresses; with
page size 1, iterating GetUTXOs with the returned cursor returns utxo 5
twice (once under each address), because the dedup set of
getPaginatedUTXOs is rebuilt on every call.  This refutes visited exactly
once. -/
theorem pagination_duplicate_counterexample :
    (5 ∈ stC 1 ∧ 5 ∈ stC 2) ∧
      iteratePages stC [1, 2] 1 4 (0, 0) = [5, 5] ∧
      (iteratePages stC [1, 2] 1 4 (0, 0)).count 5 = 2 := by
  refine ⟨by decide, by decide, by decide⟩

/-- C6 amended: iterating get_utxos with the returned cursor visits every
UTXO referenced by at least one queried address AT LEAST once (no UTXO is
skipped), and no UTXO is returned twice within a single page; a UTXO
referenced by several queried addresses may however be returned again on a
later page.  Fuel larger than the number of (address, utxo) index pairs
suffices for the iteration to reach its empty-page fixpoint. -/
theorem pagination_visits_all_at_least_once (st : Nat → List Nat)
    (addrs : List Nat) (limit fuel : Nat)
    (hsorted : ∀ x, List.Sorted (· < ·) (st x))
    (hpos : ∀ x u, u ∈ st x → 0 < u)
    (haddr : addrs.Nodup)
    (hfuel : (region st addrs (0, 0)).card < fuel) :
    (∀ a ∈ addrs, ∀ u ∈ st a, u ∈ iteratePages st addrs limit fuel (0, 0)) ∧
      ∀ sa su, (GetUTXOsPaginated st addrs sa su limit).1.Nodup := by
  constructor
  · intro a ha u hu
    have hp : (a, u) ∈ region st addrs (0, 0) := by
      rw [mem_region]
      refine ⟨ha, hu, ?_⟩
      unfold cursorLt
      have := hpos a u hu
      simp only
      omega
    exact iteratePages_complete st addrs limit hsorted hpos haddr fuel (0, 0)
      hfuel (a, u) hp
  · intro sa su
    have hL : 0 < (if limit = 0 ∨ 1024 < limit then 1024 else limit) := by
      by_cases h : limit = 0 ∨ 1024 < limit
      · rw [if_pos h]
        omega
      · rw [if_neg h]
        omega
    exact (page_spec st addrs sa su _ hsorted hpos haddr hL).1

/-- Funds index for the C6 witness: one address owning one utxo. -/
def stW : Nat → List Nat := fun a => if a = 1 then [5] else []

theorem stW_sorted : ∀ x, List.Sorted (· < ·) (stW x) := by
  intro x
  by_cases h : x = 1
  · simp [stW, h]
  · simp [stW, h]

theorem stW_pos : ∀ x u, u ∈ stW x → 0 < u := by
  intro x u hu
  by_cases h : x = 1
  · rw [stW, if_pos h] at hu
    rw [List.mem_singleton] at hu
    omega
  · rw [stW, if_neg h] at hu
    cases hu

theorem pagination_visits_all_at_least_once_witness :
    (∀ a ∈ [1], ∀ u ∈ stW a, u ∈ iteratePages stW [1] 1 2 (0, 0)) ∧
      ∀ sa su, (GetUTXOsPaginated stW [1] sa su 1).1.Nodup :=
  pagination_visits_all_at_least_once stW [1] 1 2 stW_sorted stW_pos
    (by decide) (by decide)
